import Mathlib

/-!
# CartesianInterpolator

A shallow embedding of `src/src/cartesian_interpolator.cpp`.

Conventions of the embedding:

* `ros::Time` and `ros::Duration` are integer nanosecond counts (`Int`); the
  range checks of the ROS time classes are not modelled.
* `double` values are exact rationals (`ℚ`); `toSec` divides by `10^9`.
* The member fields of the C++ class are the fields of `State`.
* An indexing `points[i]` outside the vector makes the step return `none`.
* `Eigen::Quaterniond::slerp` is library code; it is a parameter `slerp`.
-/

namespace CartesianInterpolator

/-- Nanoseconds since the epoch (`ros::Time`). -/
abbrev Time := Int

/-- Signed nanosecond count (`ros::Duration`). -/
abbrev Duration := Int

/-- Position part of `geometry_msgs::Pose`. -/
structure Position where
  x : ℚ
  y : ℚ
  z : ℚ
deriving DecidableEq

/-- Orientation part of `geometry_msgs::Pose` (a quaternion). -/
structure Orientation where
  x : ℚ
  y : ℚ
  z : ℚ
  w : ℚ
deriving DecidableEq

/-- Pose as in `geometry_msgs::Pose`. -/
structure Pose where
  position : Position
  orientation : Orientation
deriving DecidableEq

/-- Trajectory point as in `cartesian_trajectory_msgs::CartesianTrajectoryPoint`. -/
structure CartesianTrajectoryPoint where
  time_from_start : Duration
  pose : Pose
deriving DecidableEq

/-- Trajectory message: `header.stamp` and `points`. -/
structure CartesianTrajectory where
  stamp : Time
  points : List CartesianTrajectoryPoint
deriving DecidableEq

/-- Spherical interpolation `q0.slerp(a, q1)`, argument order `a q0 q1`. -/
abbrev Slerp := ℚ → Orientation → Orientation → Orientation

/-- Member fields of the component. -/
structure State where
  trajectory : Option CartesianTrajectory
  trajectory_ptr : Nat
  old_point : Pose
  setpoint : Pose
  last_point_not_set : Bool
  trajectory_active : Bool
  last_time : Time
  update_hook_iter : Int
  activate_pose_init_property : Bool
  init_setpoint_property : Pose
  ns_interval : Int
  ns_higher_bound : Int
  ns_higher_increment : Int
  ns_lower_bound : Int
  ns_lower_increment : Int
deriving DecidableEq

/-- Conversion `ros::Time::toSec`, in exact arithmetic. -/
def toSec (t : Time) : ℚ := (t : ℚ) / 1000000000

/-- The scalar overload
`interpolate(double p0, double p1, double t0, double t1, double t)`. -/
def interpolateScalar (p0 p1 t0 t1 t : ℚ) : ℚ :=
  p0 + (p1 - p0) * (t - t0) / (t1 - t0)

/-- The point overload `interpolate(p0, p1, t)`; `stamp` is
`trajectory_->header.stamp`. -/
def interpolate (slerp : Slerp) (stamp : Time)
    (p0 p1 : CartesianTrajectoryPoint) (t : Time) : Pose :=
  let t0 : Time := stamp + p0.time_from_start
  let t1 : Time := stamp + p1.time_from_start
  let a := interpolateScalar 0 1 (toSec t0) (toSec t1) (toSec t)
  { position :=
      { x := interpolateScalar p0.pose.position.x p1.pose.position.x
               (toSec t0) (toSec t1) (toSec t)
        y := interpolateScalar p0.pose.position.y p1.pose.position.y
               (toSec t0) (toSec t1) (toSec t)
        z := interpolateScalar p0.pose.position.z p1.pose.position.z
               (toSec t0) (toSec t1) (toSec t) }
    orientation := slerp a p0.pose.orientation p1.pose.orientation }

/-- Modelled from the spec: the member declarations (the header
`cartesian_interpolator.h`) are absent, so the period and the four thresholds
are taken as integer nanosecond counts; the products `ns_interval_ * 1.1`,
`* 1.05`, `* 0.9`, `* 0.95` of `configureHook` are exact products truncated
toward zero. -/
def configureHook (s : State) : State :=
  { s with
    ns_higher_bound := Int.tdiv (s.ns_interval * 11) 10
    ns_higher_increment := Int.tdiv (s.ns_interval * 105) 100
    ns_lower_bound := Int.tdiv (s.ns_interval * 9) 10
    ns_lower_increment := Int.tdiv (s.ns_interval * 95) 100 }

/-- The hook `startHook`. `position_read` is the sample read from the
`CartesianPosition` port (`none` for `RTT::NoData`), `synchronised_read` the
sample read from `IsSynchronisedIn` (`none` leaves the local at `true`),
`host_now` the host clock. The Boolean is the return value. -/
def startHook (s : State) (position_read : Option Pose)
    (synchronised_read : Option Bool) (host_now : Time) : State × Bool :=
  let is_synchronised := true
  let r : Option State :=
    if s.activate_pose_init_property then
      some { s with setpoint := s.init_setpoint_property }
    else
      match position_read with
      | none => none
      | some p => some { s with setpoint := p }
  match r with
  | none => (s, false)
  | some s1 =>
    let is_synchronised :=
      match synchronised_read with
      | some b => b
      | none => is_synchronised
    if !is_synchronised then (s1, false)
    else
      ({ s1 with
         last_point_not_set := false
         trajectory_active := false
         last_time := host_now
         update_hook_iter := 0 }, true)

/-- New-trajectory branch of `updateHook` (lines 77-82): the port read stores
the message, then the cursor and flags are reset. -/
def onNewTrajectory (s : State) (T : CartesianTrajectory) : State :=
  { s with
    trajectory := some T
    trajectory_ptr := 0
    old_point := s.setpoint
    last_point_not_set := true
    trajectory_active := true }

/-- Clock block of `updateHook` (lines 84-97): returns the state with the new
`last_time_` and the value of `now` used by the rest of the cycle. -/
def normalize (s : State) (host_now : Time) : State × Time :=
  let now : Time :=
    if s.ns_higher_bound > 0 ∧ host_now - s.last_time ≥ s.ns_higher_bound then
      s.last_time + s.ns_higher_increment
    else if s.ns_lower_bound > 0 ∧ host_now - s.last_time ≤ s.ns_lower_bound
        ∧ s.update_hook_iter > 1 then
      s.last_time + s.ns_lower_increment
    else host_now
  ({ s with last_time := now }, now)

/-- The `for` loop of lines 100-106, with `fuel` bounding the number of
iterations; `scan` supplies `points.size() - trajectory_ptr_`, which is the
number of iterations the loop can make. -/
def scanLoop (stamp : Time) (points : List CartesianTrajectoryPoint) (now : Time) :
    Nat → Nat → Nat
  | 0, ptr => ptr
  | fuel + 1, ptr =>
    if h : ptr < points.length then
      if stamp + (points.get ⟨ptr, h⟩).time_from_start > now then ptr
      else scanLoop stamp points now fuel (ptr + 1)
    else ptr

/-- The cursor after the `for` loop of lines 100-106. -/
def scan (T : CartesianTrajectory) (now : Time) (ptr : Nat) : Nat :=
  scanLoop T.stamp T.points now (T.points.length - ptr) ptr

/-- Trajectory block of `updateHook` (lines 99-122). `none` is an access
outside `points`. -/
def advance (slerp : Slerp) (s : State) (now : Time) : Option State :=
  match s.trajectory with
  | none => some s
  | some T =>
    if s.trajectory_active ∧ T.stamp < now then
      let ptr := scan T now s.trajectory_ptr
      if ptr < T.points.length then
        if ptr = 0 then
          let p0 : CartesianTrajectoryPoint :=
            { time_from_start := 0, pose := s.old_point }
          (T.points[ptr]?).map fun p1 =>
            { s with trajectory_ptr := ptr
                     setpoint := interpolate slerp T.stamp p0 p1 now }
        else
          (T.points[ptr - 1]?).bind fun p0 =>
            (T.points[ptr]?).map fun p1 =>
              { s with trajectory_ptr := ptr
                       setpoint := interpolate slerp T.stamp p0 p1 now }
      else if s.last_point_not_set then
        (T.points[T.points.length - 1]?).map fun p =>
          { s with trajectory_ptr := ptr
                   setpoint := p.pose
                   last_point_not_set := false }
      else some { s with trajectory_ptr := ptr }
    else some s

/-- Successive `advance` calls, one per element of `nows`. -/
def advanceAll (slerp : Slerp) : State → List Time → Option State
  | s, [] => some s
  | s, now :: rest => (advance slerp s now).bind fun s1 => advanceAll slerp s1 rest

/-- The hook `updateHook`: `new_trajectory` is the message read from the
trajectory port when the read reports `RTT::NewData`, `host_now` the host
clock. The result holds the new state and the pose written to the command
port. -/
def updateHook (slerp : Slerp) (s : State) (new_trajectory : Option CartesianTrajectory)
    (host_now : Time) : Option (State × Pose) :=
  let s1 :=
    match new_trajectory with
    | some T => onNewTrajectory s T
    | none => s
  let (s2, now) := normalize s1 host_now
  (advance slerp s2 now).map fun s3 => (s3, s3.setpoint)

/-- Successive clock blocks, one per host time of `raws`; the result lists
the values of `now` the cycles use. -/
def normalizeAll : State → List Time → List Time
  | _, [] => []
  | s, host_now :: rest =>
    (normalize s host_now).2 :: normalizeAll (normalize s host_now).1 rest

/-- The thresholds of `s` are the ones `configureHook` computes from its
period. -/
def Configured (s : State) : Prop :=
  s.ns_higher_bound = (configureHook s).ns_higher_bound
    ∧ s.ns_higher_increment = (configureHook s).ns_higher_increment
    ∧ s.ns_lower_bound = (configureHook s).ns_lower_bound
    ∧ s.ns_lower_increment = (configureHook s).ns_lower_increment

/-- The host times `start + P, start + 2P, …, start + k·P`. -/
def ticks (P : Int) : Time → Nat → List Time
  | _, 0 => []
  | start, k + 1 => (start + P) :: ticks P (start + P) k

/-- The slow-clock branch of `normalize` is enabled in `s`. -/
def SlowEnabled (s : State) : Prop :=
  s.ns_lower_bound > 0 ∧ s.update_hook_iter > 1

/-! ## Invariants of the trajectory follower -/

/-- Invariant of the follower while `T` (whose last point is `last`) is the
held trajectory: once the last point is latched, the setpoint is its pose and
the cursor is past the last index. -/
def Following (T : CartesianTrajectory) (last : CartesianTrajectoryPoint) (s : State) :
    Prop :=
  s.trajectory = some T ∧ s.trajectory_active = true
    ∧ (s.last_point_not_set = false →
        s.setpoint = last.pose ∧ T.points.length ≤ s.trajectory_ptr)

/-- The final hold: the last point of `T` is latched. -/
def Holding (T : CartesianTrajectory) (last : CartesianTrajectoryPoint) (s : State) :
    Prop :=
  s.trajectory = some T ∧ s.trajectory_active = true ∧ s.last_point_not_set = false
    ∧ s.setpoint = last.pose ∧ T.points.length ≤ s.trajectory_ptr

/-- Every point below the cursor has an absolute time at or before `m`, for
the held, active trajectory `T`, and the cursor is at most the point count. -/
def Passed (T : CartesianTrajectory) (s : State) (m : Time) : Prop :=
  s.trajectory = some T ∧ s.trajectory_active = true
    ∧ s.trajectory_ptr ≤ T.points.length
    ∧ ∀ i p, i < s.trajectory_ptr → T.points[i]? = some p →
        T.stamp + p.time_from_start ≤ m

/-- The number of points of `T` whose absolute time
`T.stamp + time_from_start` is at or before `now`. -/
def reachedCount (T : CartesianTrajectory) (now : Time) : Nat :=
  T.points.countP fun p => decide (T.stamp + p.time_from_start ≤ now)

/-- Modelled from the spec: `Eigen::Quaterniond::slerp` is library code that
is not part of the repository; this is requirement (3) of the spec on the
spherical interpolation, that it reduces to the first orientation at fraction
`0` and to the second at fraction `1`. -/
def SlerpReducesAtEnds (slerp : Slerp) : Prop :=
  ∀ q0 q1, slerp 0 q0 q1 = q0 ∧ slerp 1 q0 q1 = q1

/-! ## Concrete data used to instantiate the theorems -/

/-- A stand-in for the library slerp, used only at concrete inputs. -/
def holdSlerp : Slerp := fun a q0 q1 => if a < 1 then q0 else q1

/-- Pose with position `(x, y, z)` and the identity orientation. -/
def poseAt (x y z : ℚ) : Pose :=
  { position := { x := x, y := y, z := z }
    orientation := { x := 0, y := 0, z := 0, w := 1 } }

/-- Component state right after construction (constructor of lines 16-32),
with period `P` and the pose `p` in every pose field. -/
def initState (P : Int) (p : Pose) : State :=
  { trajectory := none
    trajectory_ptr := 0
    old_point := p
    setpoint := p
    last_point_not_set := false
    trajectory_active := false
    last_time := 0
    update_hook_iter := 0
    activate_pose_init_property := false
    init_setpoint_property := p
    ns_interval := P
    ns_higher_bound := 0
    ns_higher_increment := 0
    ns_lower_bound := 0
    ns_lower_increment := 0 }

/-- Configured and started component with period one millisecond, started at
host time `0` from the observed pose `(0, 0, 0)`. -/
def startedState : State :=
  (startHook (configureHook (initState 1000000 (poseAt 0 0 0)))
    (some (poseAt 0 0 0)) none 0).1

/-- Two-point trajectory starting at `1000`: `(1,0,0)` at `+100`, `(2,0,0)` at `+200`. -/
def demoTrajectory : CartesianTrajectory :=
  { stamp := 1000
    points := [{ time_from_start := 100, pose := poseAt 1 0 0 },
               { time_from_start := 200, pose := poseAt 2 0 0 }] }

/-- Trajectory with no points, starting at `1000`. -/
def emptyTrajectory : CartesianTrajectory := { stamp := 1000, points := [] }

/-! ## Helper lemmas -/

lemma advance_of_inactive (slerp : Slerp) (s : State) (now : Time)
    (h : s.trajectory_active = false) : advance slerp s now = some s := by
  unfold advance
  cases hT : s.trajectory with
  | none => rfl
  | some T => simp [h]

lemma advance_of_not_started (slerp : Slerp) (s : State) (now : Time)
    (T : CartesianTrajectory) (hT : s.trajectory = some T) (h : now ≤ T.stamp) :
    advance slerp s now = some s := by
  unfold advance
  simp [hT, not_lt.mpr h]

lemma advance_empty_latch (slerp : Slerp) (s : State) (T : CartesianTrajectory)
    (now : Time) (hT : s.trajectory = some T) (hact : s.trajectory_active = true)
    (hflag : s.last_point_not_set = true) (hpts : T.points = [])
    (hnow : T.stamp < now) : advance slerp s now = none := by
  unfold advance
  simp [hT, hact, hflag, hpts, hnow]

lemma normalize_update_hook_iter (s : State) (host_now : Time) :
    (normalize s host_now).1.update_hook_iter = s.update_hook_iter := rfl

lemma advance_update_hook_iter (slerp : Slerp) (s s1 : State) (now : Time)
    (h : advance slerp s now = some s1) :
    s1.update_hook_iter = s.update_hook_iter := by
  unfold advance at h
  cases hT : s.trajectory with
  | none =>
    simp only [hT] at h
    cases h; rfl
  | some T =>
    simp only [hT] at h
    split_ifs at h
    all_goals first
      | (cases h; rfl)
      | (simp only [Option.map_eq_some', Option.bind_eq_some] at h
         obtain ⟨_, _, h⟩ := h
         first
           | (cases h; rfl)
           | (obtain ⟨_, _, h⟩ := h; cases h; rfl))

/-- No cycle of `updateHook` changes the cycle counter. -/
lemma updateHook_update_hook_iter (slerp : Slerp) (s : State)
    (new_trajectory : Option CartesianTrajectory) (host_now : Time)
    (r : State × Pose) (h : updateHook slerp s new_trajectory host_now = some r) :
    r.1.update_hook_iter = s.update_hook_iter := by
  unfold updateHook at h
  simp only [Option.map_eq_some'] at h
  obtain ⟨s3, h3, rfl⟩ := h
  have := advance_update_hook_iter slerp _ _ _ h3
  rw [this, normalize_update_hook_iter]
  cases new_trajectory <;> rfl

/-! ### The scan loop -/

lemma le_scanLoop (stamp : Time) (points : List CartesianTrajectoryPoint) (now : Time) :
    ∀ fuel ptr, ptr ≤ scanLoop stamp points now fuel ptr := by
  intro fuel
  induction fuel with
  | zero => intro ptr; simp [scanLoop]
  | succ n ih =>
    intro ptr
    unfold scanLoop
    split_ifs
    · exact le_rfl
    · exact le_trans (Nat.le_succ ptr) (ih (ptr + 1))
    · exact le_rfl

lemma scanLoop_le_length (stamp : Time) (points : List CartesianTrajectoryPoint)
    (now : Time) :
    ∀ fuel ptr, ptr ≤ points.length → scanLoop stamp points now fuel ptr ≤ points.length := by
  intro fuel
  induction fuel with
  | zero => intro ptr h; simpa [scanLoop] using h
  | succ n ih =>
    intro ptr h
    unfold scanLoop
    split_ifs with h1 h2
    · exact h
    · exact ih (ptr + 1) h1
    · exact h

lemma scanLoop_reaches_end (stamp : Time) (points : List CartesianTrajectoryPoint)
    (now : Time) (hall : ∀ p ∈ points, stamp + p.time_from_start ≤ now) :
    ∀ fuel ptr, points.length ≤ ptr + fuel →
      points.length ≤ scanLoop stamp points now fuel ptr := by
  intro fuel
  induction fuel with
  | zero => intro ptr h; simpa [scanLoop] using h
  | succ n ih =>
    intro ptr h
    unfold scanLoop
    split_ifs with h1 h2
    · exact absurd (hall _ (List.get_mem points ptr h1)) (not_le.mpr h2)
    · exact ih (ptr + 1) (by omega)
    · exact not_lt.mp h1

lemma le_scan (T : CartesianTrajectory) (now : Time) (ptr : Nat) :
    ptr ≤ scan T now ptr :=
  le_scanLoop _ _ _ _ _

lemma scan_reaches_end (T : CartesianTrajectory) (now : Time) (ptr : Nat)
    (hall : ∀ p ∈ T.points, T.stamp + p.time_from_start ≤ now) :
    T.points.length ≤ scan T now ptr :=
  scanLoop_reaches_end _ _ _ hall _ _ (by omega)

/-! ### One step of `advance` -/

/-- The interpolating branch: the scan stops on a valid index. -/
lemma advance_interpolating (slerp : Slerp) (s : State) (T : CartesianTrajectory)
    (now : Time) (hT : s.trajectory = some T) (hact : s.trajectory_active = true)
    (hstart : T.stamp < now) (hc : scan T now s.trajectory_ptr < T.points.length) :
    advance slerp s now =
      some { s with
        trajectory_ptr := scan T now s.trajectory_ptr
        setpoint :=
          if scan T now s.trajectory_ptr = 0 then
            interpolate slerp T.stamp
              { time_from_start := 0, pose := s.old_point }
              (T.points.get ⟨scan T now s.trajectory_ptr, hc⟩) now
          else
            interpolate slerp T.stamp
              (T.points.get ⟨scan T now s.trajectory_ptr - 1,
                lt_of_le_of_lt (Nat.sub_le _ _) hc⟩)
              (T.points.get ⟨scan T now s.trajectory_ptr, hc⟩) now } := by
  have hm : scan T now s.trajectory_ptr - 1 < T.points.length :=
    lt_of_le_of_lt (Nat.sub_le _ _) hc
  unfold advance
  simp only [hT, hact, hstart, and_self, if_true, hc]
  by_cases h0 : scan T now s.trajectory_ptr = 0
  · simp only [h0, if_true, List.getElem?_eq_getElem (h0 ▸ hc), Option.map_some',
      List.get_eq_getElem]
  · simp only [h0, if_false, List.getElem?_eq_getElem hc, List.getElem?_eq_getElem hm,
      Option.map_some', Option.some_bind, List.get_eq_getElem]

/-- The final-hold branch: the scan ran past the last index and the last
point has not been latched yet. -/
lemma advance_latching (slerp : Slerp) (s : State) (T : CartesianTrajectory)
    (now : Time) (last : CartesianTrajectoryPoint) (hT : s.trajectory = some T)
    (hact : s.trajectory_active = true) (hstart : T.stamp < now)
    (hc : T.points.length ≤ scan T now s.trajectory_ptr)
    (hflag : s.last_point_not_set = true) (hlast : T.points.getLast? = some last) :
    advance slerp s now =
      some { s with
        trajectory_ptr := scan T now s.trajectory_ptr
        setpoint := last.pose
        last_point_not_set := false } := by
  unfold advance
  rw [List.getLast?_eq_getElem?] at hlast
  simp only [hT, hact, hstart, and_self, if_true, not_lt.mpr hc, if_false, hflag, hlast,
    Option.map_some']

/-- The steady state: the scan ran past the last index and the last point is
already latched. -/
lemma advance_latched (slerp : Slerp) (s : State) (T : CartesianTrajectory)
    (now : Time) (hT : s.trajectory = some T)
    (hact : s.trajectory_active = true) (hstart : T.stamp < now)
    (hc : T.points.length ≤ scan T now s.trajectory_ptr)
    (hflag : s.last_point_not_set = false) :
    advance slerp s now = some { s with trajectory_ptr := scan T now s.trajectory_ptr } := by
  unfold advance
  simp [hT, hact, hstart, not_lt.mpr hc, hflag]

/-- The guard of line 99 fails. -/
lemma advance_guard_false (slerp : Slerp) (s : State) (now : Time)
    (h : ∀ T, s.trajectory = some T → ¬ (s.trajectory_active = true ∧ T.stamp < now)) :
    advance slerp s now = some s := by
  unfold advance
  cases hT : s.trajectory with
  | none => rfl
  | some T => simp only [if_neg (h T hT)]

/-- What a completed step leaves alone, and the direction the cursor moves. -/
lemma advance_frame (slerp : Slerp) (s s1 : State) (now : Time)
    (h : advance slerp s now = some s1) :
    s1.trajectory = s.trajectory ∧ s1.trajectory_active = s.trajectory_active
      ∧ s1.old_point = s.old_point ∧ s.trajectory_ptr ≤ s1.trajectory_ptr := by
  cases hT : s.trajectory with
  | none =>
    have := advance_guard_false slerp s now (by simp [hT])
    rw [this] at h
    cases h
    exact ⟨hT.symm ▸ rfl, rfl, rfl, le_rfl⟩
  | some T =>
    rw [← hT]
    by_cases hg : s.trajectory_active = true ∧ T.stamp < now
    · obtain ⟨hact, hstart⟩ := hg
      by_cases hc : scan T now s.trajectory_ptr < T.points.length
      · rw [advance_interpolating slerp s T now hT hact hstart hc] at h
        cases h
        exact ⟨rfl, rfl, rfl, le_scan T now _⟩
      · by_cases hflag : s.last_point_not_set = true
        · unfold advance at h
          simp only [hT, hact, hstart, and_self, if_true, hc, if_false, hflag,
            Option.map_eq_some'] at h
          obtain ⟨p, _, rfl⟩ := h
          exact ⟨hT.symm, hact.symm, rfl, le_scan T now _⟩
        · rw [advance_latched slerp s T now hT hact hstart (not_lt.mp hc)
            (by simpa using hflag)] at h
          cases h
          exact ⟨rfl, rfl, rfl, le_scan T now _⟩
    · have := advance_guard_false slerp s now (fun T1 hT1 => by
        rw [hT] at hT1; cases hT1; exact hg)
      rw [this] at h
      cases h
      exact ⟨rfl, rfl, rfl, le_rfl⟩

/-- A step completes whenever the held trajectory, if any, has a point. -/
lemma advance_completes (slerp : Slerp) (s : State) (now : Time)
    (hne : ∀ T, s.trajectory = some T → T.points ≠ []) :
    ∃ s1, advance slerp s now = some s1 := by
  cases hT : s.trajectory with
  | none => exact ⟨s, advance_guard_false slerp s now (by simp [hT])⟩
  | some T =>
    by_cases hg : s.trajectory_active = true ∧ T.stamp < now
    · obtain ⟨hact, hstart⟩ := hg
      by_cases hc : scan T now s.trajectory_ptr < T.points.length
      · exact ⟨_, advance_interpolating slerp s T now hT hact hstart hc⟩
      · by_cases hflag : s.last_point_not_set = true
        · obtain ⟨last, hlast⟩ : ∃ last, T.points.getLast? = some last := by
            cases hp : T.points with
            | nil => exact absurd hp (hne T hT)
            | cons a l => exact ⟨_, List.getLast?_eq_getLast _ (List.cons_ne_nil a l)⟩
          exact ⟨_, advance_latching slerp s T now last hT hact hstart (not_lt.mp hc)
            hflag hlast⟩
        · exact ⟨_, advance_latched slerp s T now hT hact hstart (not_lt.mp hc)
            (by simpa using hflag)⟩
    · exact ⟨s, advance_guard_false slerp s now (fun T1 hT1 => by
        rw [hT] at hT1; cases hT1; exact hg)⟩

lemma advanceAll_frame (slerp : Slerp) (nows : List Time) :
    ∀ s s1, advanceAll slerp s nows = some s1 →
      s1.trajectory = s.trajectory ∧ s.trajectory_ptr ≤ s1.trajectory_ptr := by
  induction nows with
  | nil =>
    intro s s1 h
    simp only [advanceAll, Option.some.injEq] at h
    subst h
    exact ⟨rfl, le_rfl⟩
  | cons now rest ih =>
    intro s s1 h
    simp only [advanceAll, Option.bind_eq_some] at h
    obtain ⟨s2, h2, h3⟩ := h
    obtain ⟨ht, _, _, hp⟩ := advance_frame slerp s s2 now h2
    obtain ⟨ht1, hp1⟩ := ih s2 s1 h3
    exact ⟨ht1.trans ht, le_trans hp hp1⟩

lemma advanceAll_completes (slerp : Slerp) (nows : List Time) :
    ∀ s, (∀ T, s.trajectory = some T → T.points ≠ []) →
      ∃ s1, advanceAll slerp s nows = some s1 := by
  induction nows with
  | nil => intro s _; exact ⟨s, rfl⟩
  | cons now rest ih =>
    intro s hne
    obtain ⟨s2, h2⟩ := advance_completes slerp s now hne
    obtain ⟨ht, _⟩ := advance_frame slerp s s2 now h2
    obtain ⟨s1, h1⟩ := ih s2 (fun T hT => hne T (ht ▸ hT))
    exact ⟨s1, by simp only [advanceAll, h2, Option.some_bind, h1]⟩

/-! ### The final hold -/

lemma following_onNewTrajectory (s : State) (T : CartesianTrajectory)
    (last : CartesianTrajectoryPoint) : Following T last (onNewTrajectory s T) :=
  ⟨rfl, rfl, fun h => by simp [onNewTrajectory] at h⟩

lemma advance_following (slerp : Slerp) (T : CartesianTrajectory)
    (last : CartesianTrajectoryPoint) (hlast : T.points.getLast? = some last)
    (s : State) (now : Time) (hs : Following T last s) :
    ∃ s1, advance slerp s now = some s1 ∧ Following T last s1 := by
  obtain ⟨hT, hact, hinv⟩ := hs
  by_cases hstart : T.stamp < now
  · by_cases hc : scan T now s.trajectory_ptr < T.points.length
    · refine ⟨_, advance_interpolating slerp s T now hT hact hstart hc, hT, hact, ?_⟩
      intro hflag
      have := (hinv hflag).2
      exact absurd (le_trans this (le_scan T now _)) (not_le.mpr hc)
    · by_cases hflag : s.last_point_not_set = true
      · exact ⟨_, advance_latching slerp s T now last hT hact hstart (not_lt.mp hc)
          hflag hlast, hT, hact, fun _ => ⟨rfl, not_lt.mp hc⟩⟩
      · have hf : s.last_point_not_set = false := by simpa using hflag
        exact ⟨_, advance_latched slerp s T now hT hact hstart (not_lt.mp hc) hf,
          hT, hact, fun _ => ⟨(hinv hf).1, not_lt.mp hc⟩⟩
  · exact ⟨s, advance_guard_false slerp s now (fun T1 hT1 h => by
      rw [hT] at hT1; cases hT1; exact hstart h.2), hT, hact, hinv⟩

lemma advanceAll_following (slerp : Slerp) (T : CartesianTrajectory)
    (last : CartesianTrajectoryPoint) (hlast : T.points.getLast? = some last)
    (nows : List Time) :
    ∀ s, Following T last s →
      ∃ s1, advanceAll slerp s nows = some s1 ∧ Following T last s1 := by
  induction nows with
  | nil => intro s hs; exact ⟨s, rfl, hs⟩
  | cons now rest ih =>
    intro s hs
    obtain ⟨s2, h2, hs2⟩ := advance_following slerp T last hlast s now hs
    obtain ⟨s1, h1, hs1⟩ := ih s2 hs2
    exact ⟨s1, by simp only [advanceAll, h2, Option.some_bind, h1], hs1⟩

lemma advance_following_past_end (slerp : Slerp) (T : CartesianTrajectory)
    (last : CartesianTrajectoryPoint) (hlast : T.points.getLast? = some last)
    (s : State) (now : Time) (hs : Following T last s) (hstart : T.stamp < now)
    (hall : ∀ p ∈ T.points, T.stamp + p.time_from_start ≤ now) :
    ∃ s1, advance slerp s now = some s1 ∧ Holding T last s1 := by
  obtain ⟨hT, hact, hinv⟩ := hs
  have hc : T.points.length ≤ scan T now s.trajectory_ptr := scan_reaches_end T now _ hall
  by_cases hflag : s.last_point_not_set = true
  · exact ⟨_, advance_latching slerp s T now last hT hact hstart hc hflag hlast,
      hT, hact, rfl, rfl, hc⟩
  · have hf : s.last_point_not_set = false := by simpa using hflag
    exact ⟨_, advance_latched slerp s T now hT hact hstart hc hf,
      hT, hact, hf, (hinv hf).1, hc⟩

lemma advance_holding (slerp : Slerp) (T : CartesianTrajectory)
    (last : CartesianTrajectoryPoint) (s : State) (now : Time) (hs : Holding T last s) :
    ∃ s1, advance slerp s now = some s1 ∧ Holding T last s1 := by
  obtain ⟨hT, hact, hf, hset, hptr⟩ := hs
  by_cases hstart : T.stamp < now
  · have hc : T.points.length ≤ scan T now s.trajectory_ptr :=
      le_trans hptr (le_scan T now _)
    exact ⟨_, advance_latched slerp s T now hT hact hstart hc hf, hT, hact, hf, hset, hc⟩
  · exact ⟨s, advance_guard_false slerp s now (fun T1 hT1 h => by
      rw [hT] at hT1; cases hT1; exact hstart h.2), hT, hact, hf, hset, hptr⟩

lemma advanceAll_holding (slerp : Slerp) (T : CartesianTrajectory)
    (last : CartesianTrajectoryPoint) (nows : List Time) :
    ∀ s, Holding T last s → ∃ s1, advanceAll slerp s nows = some s1 ∧ Holding T last s1 := by
  induction nows with
  | nil => intro s hs; exact ⟨s, rfl, hs⟩
  | cons now rest ih =>
    intro s hs
    obtain ⟨s2, h2, hs2⟩ := advance_holding slerp T last s now hs
    obtain ⟨s1, h1, hs1⟩ := ih s2 hs2
    exact ⟨s1, by simp only [advanceAll, h2, Option.some_bind, h1], hs1⟩

/-- In a list with non-decreasing offsets every offset is at most the last. -/
lemma time_from_start_le_last (points : List CartesianTrajectoryPoint)
    (last : CartesianTrajectoryPoint) (hlast : points.getLast? = some last)
    (hmono : points.Pairwise fun a b => a.time_from_start ≤ b.time_from_start) :
    ∀ p ∈ points, p.time_from_start ≤ last.time_from_start := by
  have hsplit : points.dropLast ++ [last] = points :=
    List.dropLast_append_getLast? last (by simp [hlast])
  rw [← hsplit] at hmono
  obtain ⟨_, _, hcross⟩ := List.pairwise_append.mp hmono
  intro p hp
  rw [← hsplit] at hp
  rcases List.mem_append.mp hp with h | h
  · exact hcross p h last (List.mem_singleton.mpr rfl)
  · rw [List.mem_singleton.mp h]

/-! ## Claims -/

/-- C6: `onNewTrajectory(T)` stores `T`, resets the cursor to `0`, captures
the setpoint held before the call as the segment start pose, sets both flags,
and leaves the setpoint, the clock state (last time, cycle counter) and the
configuration unchanged. -/
theorem onNewTrajectory_postcondition (s : State) (T : CartesianTrajectory) :
    (onNewTrajectory s T).trajectory = some T
    ∧ (onNewTrajectory s T).trajectory_ptr = 0
    ∧ (onNewTrajectory s T).old_point = s.setpoint
    ∧ (onNewTrajectory s T).trajectory_active = true
    ∧ (onNewTrajectory s T).last_point_not_set = true
    ∧ (onNewTrajectory s T).setpoint = s.setpoint
    ∧ (onNewTrajectory s T).last_time = s.last_time
    ∧ (onNewTrajectory s T).update_hook_iter = s.update_hook_iter
    ∧ (onNewTrajectory s T).ns_interval = s.ns_interval
    ∧ (onNewTrajectory s T).ns_higher_bound = s.ns_higher_bound
    ∧ (onNewTrajectory s T).ns_higher_increment = s.ns_higher_increment
    ∧ (onNewTrajectory s T).ns_lower_bound = s.ns_lower_bound
    ∧ (onNewTrajectory s T).ns_lower_increment = s.ns_lower_increment :=
  ⟨rfl, rfl, rfl, rfl, rfl, rfl, rfl, rfl, rfl, rfl, rfl, rfl, rfl⟩

/-- C4: continuity at handoff. After `onNewTrajectory(T)`, the call
`advance(T.stamp)` completes, changes nothing, and the pose it emits is the
setpoint held immediately before `onNewTrajectory`. -/
theorem handoff_continuity (slerp : Slerp) (s : State) (T : CartesianTrajectory) :
    ∃ s1, advance slerp (onNewTrajectory s T) T.stamp = some s1
      ∧ s1 = onNewTrajectory s T ∧ s1.setpoint = s.setpoint :=
  ⟨onNewTrajectory s T,
    advance_of_not_started slerp (onNewTrajectory s T) T.stamp T rfl le_rfl, rfl, rfl⟩

/-- C7: when no trajectory is active (flag unset or no message held), or the
held trajectory starts after `now`, `advance(now)` completes and returns the
state unchanged: setpoint, cursor and both flags are what they were. -/
theorem advance_noop_inactive_or_future (slerp : Slerp) (s : State) (now : Time)
    (h : s.trajectory_active = false ∨ s.trajectory = none
      ∨ ∃ T, s.trajectory = some T ∧ now < T.stamp) :
    ∃ s1, advance slerp s now = some s1
      ∧ s1.setpoint = s.setpoint ∧ s1.trajectory_ptr = s.trajectory_ptr
      ∧ s1.trajectory_active = s.trajectory_active
      ∧ s1.last_point_not_set = s.last_point_not_set ∧ s1 = s := by
  refine ⟨s, ?_, rfl, rfl, rfl, rfl, rfl⟩
  rcases h with h | h | ⟨T, hT, hlt⟩
  · exact advance_of_inactive slerp s now h
  · unfold advance
    rw [h]
  · exact advance_of_not_started slerp s now T hT (le_of_lt hlt)

/-- Witness for C7: a trajectory starting at `1000` is held and active, and
`advance` is called at `now = 500`. -/
theorem advance_noop_inactive_or_future_witness :
    (onNewTrajectory startedState demoTrajectory).trajectory = some demoTrajectory
    ∧ (500 : Time) < demoTrajectory.stamp
    ∧ ∃ s1, advance holdSlerp (onNewTrajectory startedState demoTrajectory) 500 = some s1
      ∧ s1.setpoint = (onNewTrajectory startedState demoTrajectory).setpoint
      ∧ s1.trajectory_ptr = (onNewTrajectory startedState demoTrajectory).trajectory_ptr
      ∧ s1.trajectory_active
          = (onNewTrajectory startedState demoTrajectory).trajectory_active
      ∧ s1.last_point_not_set
          = (onNewTrajectory startedState demoTrajectory).last_point_not_set
      ∧ s1 = onNewTrajectory startedState demoTrajectory :=
  ⟨rfl, by decide,
    advance_noop_inactive_or_future holdSlerp
      (onNewTrajectory startedState demoTrajectory) 500
      (Or.inr (Or.inr ⟨demoTrajectory, rfl, by decide⟩))⟩

lemma interpolateScalar_at_t0 (p0 p1 t0 t1 : ℚ) :
    interpolateScalar p0 p1 t0 t1 t0 = p0 := by
  simp [interpolateScalar]

lemma interpolateScalar_at_t1 (p0 p1 t0 t1 : ℚ) (h : t0 ≠ t1) :
    interpolateScalar p0 p1 t0 t1 t1 = p1 := by
  have hd : t1 - t0 ≠ 0 := sub_ne_zero.mpr (Ne.symm h)
  unfold interpolateScalar
  rw [mul_div_assoc, div_self hd]
  ring

lemma toSec_injective : Function.Injective toSec := by
  intro a b h
  unfold toSec at h
  have h9 : (1000000000 : ℚ) ≠ 0 := by norm_num
  have := (div_left_inj' h9).mp h
  exact_mod_cast this

/-- C9: in exact arithmetic and for `t0 ≠ t1`, the scalar interpolation
returns `p0` at `t0` and `p1` at `t1`; hence the position computed by the
point overload is the first point's position at the first point's time and
the second point's position at the second point's time, on all three axes. -/
theorem interpolation_boundary_exact (slerp : Slerp) (stamp : Time)
    (a b : CartesianTrajectoryPoint) (p0 p1 t0 t1 : ℚ) (ht : t0 ≠ t1)
    (hab : a.time_from_start ≠ b.time_from_start) :
    interpolateScalar p0 p1 t0 t1 t0 = p0
    ∧ interpolateScalar p0 p1 t0 t1 t1 = p1
    ∧ (interpolate slerp stamp a b (stamp + a.time_from_start)).position
        = a.pose.position
    ∧ (interpolate slerp stamp a b (stamp + b.time_from_start)).position
        = b.pose.position := by
  have hsec : toSec (stamp + a.time_from_start) ≠ toSec (stamp + b.time_from_start) := by
    intro h
    exact hab (Int.add_left_cancel (toSec_injective h))
  refine ⟨interpolateScalar_at_t0 _ _ _ _, interpolateScalar_at_t1 _ _ _ _ ht, ?_, ?_⟩
  · simp only [interpolate, interpolateScalar_at_t0]
  · simp only [interpolate, interpolateScalar_at_t1 _ _ _ _ hsec]

/-- Witness for C9: scalars `3 → 7` over `[1, 2]`, and the two points of the
demonstration trajectory. -/
theorem interpolation_boundary_exact_witness :
    interpolateScalar 3 7 1 2 1 = 3
    ∧ interpolateScalar 3 7 1 2 2 = 7
    ∧ (interpolate holdSlerp 1000 ⟨100, poseAt 1 0 0⟩ ⟨200, poseAt 2 0 0⟩
        (1000 + (100 : Duration))).position = (poseAt 1 0 0).position
    ∧ (interpolate holdSlerp 1000 ⟨100, poseAt 1 0 0⟩ ⟨200, poseAt 2 0 0⟩
        (1000 + (200 : Duration))).position = (poseAt 2 0 0).position :=
  interpolation_boundary_exact holdSlerp 1000 ⟨100, poseAt 1 0 0⟩ ⟨200, poseAt 2 0 0⟩
    3 7 1 2 (by norm_num) (by decide)

/-- C10: for a component configured with `P = 1,000,000` the fast-clock
thresholds are `1,100,000` and `1,050,000`, and whenever the host time is at
least `ns_higher_bound` past `last_time`, `normalize` returns
`last_time + 1,050,000` and stores it as the new `last_time`. -/
theorem fast_clock_clamp (s : State) (host_now : Time)
    (hP : s.ns_interval = 1000000)
    (hcfg : s.ns_higher_bound = (configureHook s).ns_higher_bound
      ∧ s.ns_higher_increment = (configureHook s).ns_higher_increment)
    (hjump : host_now - s.last_time ≥ s.ns_higher_bound) :
    s.ns_higher_bound = 1100000 ∧ s.ns_higher_increment = 1050000
    ∧ (normalize s host_now).2 = s.last_time + 1050000
    ∧ (normalize s host_now).1.last_time = s.last_time + 1050000 := by
  obtain ⟨hb, hi⟩ := hcfg
  have hb1 : s.ns_higher_bound = 1100000 := by
    rw [hb]; simp only [configureHook, hP]; decide
  have hi1 : s.ns_higher_increment = 1050000 := by
    rw [hi]; simp only [configureHook, hP]; decide
  have hpos : s.ns_higher_bound > 0 := by rw [hb1]; decide
  refine ⟨hb1, hi1, ?_, ?_⟩
  · simp only [normalize, if_pos (And.intro hpos hjump), hi1]
  · simp only [normalize, if_pos (And.intro hpos hjump), hi1]

/-- Witness for C10: the started component (last time `0`) sees the host
clock jump by `1.2·P = 1,200,000`. -/
theorem fast_clock_clamp_witness :
    startedState.ns_interval = 1000000
    ∧ (1200000 : Time) - startedState.last_time ≥ startedState.ns_higher_bound
    ∧ startedState.ns_higher_bound = 1100000
    ∧ startedState.ns_higher_increment = 1050000
    ∧ (normalize startedState 1200000).2 = startedState.last_time + 1050000
    ∧ (normalize startedState 1200000).1.last_time = startedState.last_time + 1050000 :=
  ⟨rfl, by decide,
    fast_clock_clamp startedState 1200000 rfl ⟨rfl, rfl⟩ (by decide)⟩

/-- C2: on an empty trajectory the code does not skip the final-hold branch.
After `onNewTrajectory` of a trajectory with no points that started at `1000`,
the cycle at `now = 1001` takes the final-hold branch and indexes
`points[size - 1]` of an empty vector; the same holds for a whole
`updateHook` cycle that receives the empty trajectory. -/
theorem empty_trajectory_final_hold_out_of_bounds :
    (onNewTrajectory startedState emptyTrajectory).last_point_not_set = true
    ∧ scan emptyTrajectory 1001 0 = 0
    ∧ emptyTrajectory.points[emptyTrajectory.points.length - 1]? = none
    ∧ advance holdSlerp (onNewTrajectory startedState emptyTrajectory) 1001 = none
    ∧ updateHook holdSlerp startedState (some emptyTrajectory) 1001 = none :=
  ⟨rfl, rfl, rfl, rfl, rfl⟩

/-- C3: the cycle counter is never incremented. After start with
`P = 1,000,000` and two cycles at host times `1,000,000` and `2,000,000`, the
counter is still `0`; in the third cycle the host clock is only `500,000`
past `last_time` (below `ns_lower_bound = 900,000`), and the cycle uses the
host time `2,500,000`, not `2,000,000 + 950,000`. -/
theorem slow_clock_counter_never_incremented :
    startedState.update_hook_iter = 0
    ∧ ((updateHook holdSlerp startedState none 1000000).bind fun r1 =>
        (updateHook holdSlerp r1.1 none 2000000).bind fun r2 =>
          (updateHook holdSlerp r2.1 none 2500000).map fun r3 =>
            (r2.1.update_hook_iter, r2.1.last_time, r2.1.ns_lower_bound,
              r2.1.ns_lower_increment, r3.1.update_hook_iter, r3.1.last_time))
      = some (0, 2000000, 900000, 950000, 0, 2500000)
    ∧ (normalize (normalize (normalize startedState 1000000).1 2000000).1 2500000).2
        = 2500000 :=
  ⟨rfl, by decide, by decide⟩

/-- C1: final hold. Let `T` be a trajectory with last point `last` whose
offsets are non-negative and non-decreasing. After `onNewTrajectory(T)` and
any `advance` calls `before`, an `advance` call at a time past
`T.stamp + last.time_from_start` completes and leaves the setpoint at the
pose of `last`; any further `advance` calls `later`, at whatever times, all
complete and the setpoint is still the pose of `last`. -/
theorem final_hold (slerp : Slerp) (s : State) (T : CartesianTrajectory)
    (last : CartesianTrajectoryPoint) (before later : List Time) (now : Time)
    (hlast : T.points.getLast? = some last)
    (hnonneg : ∀ p ∈ T.points, 0 ≤ p.time_from_start)
    (hmono : T.points.Pairwise fun a b => a.time_from_start ≤ b.time_from_start)
    (hnow : T.stamp + last.time_from_start < now) :
    ∃ s1 s2 s3, advanceAll slerp (onNewTrajectory s T) before = some s1
      ∧ advance slerp s1 now = some s2 ∧ s2.setpoint = last.pose
      ∧ advanceAll slerp s2 later = some s3 ∧ s3.setpoint = last.pose := by
  have hmem : last ∈ T.points := List.mem_of_getLast?_eq_some hlast
  have h0 : 0 ≤ last.time_from_start := hnonneg last hmem
  have hstart : T.stamp < now := lt_of_le_of_lt (le_add_of_nonneg_right h0) hnow
  have hall : ∀ p ∈ T.points, T.stamp + p.time_from_start ≤ now := fun p hp =>
    le_of_lt (lt_of_le_of_lt
      (add_le_add_left (time_from_start_le_last T.points last hlast hmono p hp) _) hnow)
  obtain ⟨s1, h1, hs1⟩ :=
    advanceAll_following slerp T last hlast before _ (following_onNewTrajectory s T last)
  obtain ⟨s2, h2, hs2⟩ :=
    advance_following_past_end slerp T last hlast s1 now hs1 hstart hall
  obtain ⟨s3, h3, hs3⟩ := advanceAll_holding slerp T last later s2 hs2
  exact ⟨s1, s2, s3, h1, h2, hs2.2.2.2.1, h3, hs3.2.2.2.1⟩

/-- Witness for C1: the demonstration trajectory (last point at `1200`), one
interpolating call at `1050`, the call at `1250`, then calls at `1100` and
`5000`. -/
theorem final_hold_witness :
    demoTrajectory.points.getLast? = some ⟨200, poseAt 2 0 0⟩
    ∧ (∀ p ∈ demoTrajectory.points, 0 ≤ p.time_from_start)
    ∧ (demoTrajectory.points.Pairwise fun a b => a.time_from_start ≤ b.time_from_start)
    ∧ demoTrajectory.stamp + (200 : Duration) < (1250 : Time)
    ∧ ∃ s1 s2 s3,
      advanceAll holdSlerp (onNewTrajectory startedState demoTrajectory) [1050] = some s1
      ∧ advance holdSlerp s1 1250 = some s2 ∧ s2.setpoint = poseAt 2 0 0
      ∧ advanceAll holdSlerp s2 [1100, 5000] = some s3 ∧ s3.setpoint = poseAt 2 0 0 :=
  ⟨rfl, by decide, by decide, by decide,
    final_hold holdSlerp startedState demoTrajectory ⟨200, poseAt 2 0 0⟩ [1050]
      [1100, 5000] 1250 rfl (by decide) (by decide) (by decide)⟩

/-- C5: segment selection. When the guard of line 99 holds and the scan ends
on a valid index `c`, `advance` completes with cursor `c`, and the position of
the new setpoint is, on each axis, the scalar interpolation at `toSec now`
between: for `c = 0`, `old_point_` at `toSec T.stamp` and `points[0]` at its
absolute time; otherwise `points[c-1]` and `points[c]` at their absolute
times `T.stamp + time_from_start`. -/
theorem segment_selection (slerp : Slerp) (s : State) (T : CartesianTrajectory)
    (now : Time) (hT : s.trajectory = some T) (hact : s.trajectory_active = true)
    (hstart : T.stamp < now) (hc : scan T now s.trajectory_ptr < T.points.length) :
    ∃ s1 p1, advance slerp s now = some s1
      ∧ s1.trajectory_ptr = scan T now s.trajectory_ptr
      ∧ T.points[s1.trajectory_ptr]? = some p1
      ∧ (s1.trajectory_ptr = 0 →
          s1.setpoint.position =
            { x := interpolateScalar s.old_point.position.x p1.pose.position.x
                (toSec T.stamp) (toSec (T.stamp + p1.time_from_start)) (toSec now)
              y := interpolateScalar s.old_point.position.y p1.pose.position.y
                (toSec T.stamp) (toSec (T.stamp + p1.time_from_start)) (toSec now)
              z := interpolateScalar s.old_point.position.z p1.pose.position.z
                (toSec T.stamp) (toSec (T.stamp + p1.time_from_start)) (toSec now) })
      ∧ (s1.trajectory_ptr ≠ 0 →
          ∃ p0, T.points[s1.trajectory_ptr - 1]? = some p0
            ∧ s1.setpoint.position =
              { x := interpolateScalar p0.pose.position.x p1.pose.position.x
                  (toSec (T.stamp + p0.time_from_start))
                  (toSec (T.stamp + p1.time_from_start)) (toSec now)
                y := interpolateScalar p0.pose.position.y p1.pose.position.y
                  (toSec (T.stamp + p0.time_from_start))
                  (toSec (T.stamp + p1.time_from_start)) (toSec now)
                z := interpolateScalar p0.pose.position.z p1.pose.position.z
                  (toSec (T.stamp + p0.time_from_start))
                  (toSec (T.stamp + p1.time_from_start)) (toSec now) }) := by
  have hm : scan T now s.trajectory_ptr - 1 < T.points.length :=
    lt_of_le_of_lt (Nat.sub_le _ _) hc
  refine ⟨_, T.points.get ⟨scan T now s.trajectory_ptr, hc⟩,
    advance_interpolating slerp s T now hT hact hstart hc, rfl, ?_, ?_, ?_⟩
  · exact List.getElem?_eq_getElem hc
  · intro h0
    have h0 : scan T now s.trajectory_ptr = 0 := h0
    simp only [h0, if_true, interpolate, add_zero]
  · intro h0
    have h0 : ¬ scan T now s.trajectory_ptr = 0 := h0
    refine ⟨T.points.get ⟨scan T now s.trajectory_ptr - 1, hm⟩, ?_, ?_⟩
    · exact List.getElem?_eq_getElem hm
    · simp only [h0, if_false, interpolate]

/-- Witness for C5: the demonstration trajectory right after it was received,
at `now = 1050`; the scan stops at cursor `0`. -/
theorem segment_selection_witness :
    (onNewTrajectory startedState demoTrajectory).trajectory = some demoTrajectory
    ∧ (onNewTrajectory startedState demoTrajectory).trajectory_active = true
    ∧ demoTrajectory.stamp < (1050 : Time)
    ∧ scan demoTrajectory 1050 (onNewTrajectory startedState demoTrajectory).trajectory_ptr
        < demoTrajectory.points.length
    ∧ ∃ s1 p1,
      advance holdSlerp (onNewTrajectory startedState demoTrajectory) 1050 = some s1
      ∧ s1.trajectory_ptr
          = scan demoTrajectory 1050
              (onNewTrajectory startedState demoTrajectory).trajectory_ptr
      ∧ demoTrajectory.points[s1.trajectory_ptr]? = some p1
      ∧ (s1.trajectory_ptr = 0 →
          s1.setpoint.position =
            { x := interpolateScalar
                (onNewTrajectory startedState demoTrajectory).old_point.position.x
                p1.pose.position.x (toSec demoTrajectory.stamp)
                (toSec (demoTrajectory.stamp + p1.time_from_start)) (toSec 1050)
              y := interpolateScalar
                (onNewTrajectory startedState demoTrajectory).old_point.position.y
                p1.pose.position.y (toSec demoTrajectory.stamp)
                (toSec (demoTrajectory.stamp + p1.time_from_start)) (toSec 1050)
              z := interpolateScalar
                (onNewTrajectory startedState demoTrajectory).old_point.position.z
                p1.pose.position.z (toSec demoTrajectory.stamp)
                (toSec (demoTrajectory.stamp + p1.time_from_start)) (toSec 1050) })
      ∧ (s1.trajectory_ptr ≠ 0 →
          ∃ p0, demoTrajectory.points[s1.trajectory_ptr - 1]? = some p0
            ∧ s1.setpoint.position =
              { x := interpolateScalar p0.pose.position.x p1.pose.position.x
                  (toSec (demoTrajectory.stamp + p0.time_from_start))
                  (toSec (demoTrajectory.stamp + p1.time_from_start)) (toSec 1050)
                y := interpolateScalar p0.pose.position.y p1.pose.position.y
                  (toSec (demoTrajectory.stamp + p0.time_from_start))
                  (toSec (demoTrajectory.stamp + p1.time_from_start)) (toSec 1050)
                z := interpolateScalar p0.pose.position.z p1.pose.position.z
                  (toSec (demoTrajectory.stamp + p0.time_from_start))
                  (toSec (demoTrajectory.stamp + p1.time_from_start)) (toSec 1050) }) :=
  ⟨rfl, rfl, by decide, by decide,
    segment_selection holdSlerp (onNewTrajectory startedState demoTrajectory)
      demoTrajectory 1050 rfl rfl (by decide) (by decide)⟩

/-- C8: monotonic cursor. From any state, between two `onNewTrajectory`
calls: a completed `advance` call never lowers the cursor, whatever its time;
the same holds across any completed sequence of `advance` calls (in
particular one with non-decreasing times); and every call completes when the
held trajectory, if any, has at least one point. -/
theorem cursor_monotone (slerp : Slerp) (s : State) :
    (∀ now s1, advance slerp s now = some s1 → s.trajectory_ptr ≤ s1.trajectory_ptr)
    ∧ (∀ nows s1, advanceAll slerp s nows = some s1 →
        s.trajectory_ptr ≤ s1.trajectory_ptr)
    ∧ ((∀ T, s.trajectory = some T → T.points ≠ []) →
        ∀ nows, ∃ s1, advanceAll slerp s nows = some s1
          ∧ s.trajectory_ptr ≤ s1.trajectory_ptr) := by
  refine ⟨fun now s1 h => (advance_frame slerp s s1 now h).2.2.2,
    fun nows s1 h => (advanceAll_frame slerp nows s s1 h).2, fun hne nows => ?_⟩
  obtain ⟨s1, h1⟩ := advanceAll_completes slerp nows s hne
  exact ⟨s1, h1, (advanceAll_frame slerp nows s s1 h1).2⟩

/-- Witness for C8: the demonstration trajectory followed through the times
`1050`, `1150`, `1150`, `1250`. -/
theorem cursor_monotone_witness :
    (∀ T, (onNewTrajectory startedState demoTrajectory).trajectory = some T →
      T.points ≠ [])
    ∧ ∃ s1, advanceAll holdSlerp (onNewTrajectory startedState demoTrajectory)
          [1050, 1150, 1150, 1250] = some s1
      ∧ (onNewTrajectory startedState demoTrajectory).trajectory_ptr ≤ s1.trajectory_ptr :=
  have hne : ∀ T, (onNewTrajectory startedState demoTrajectory).trajectory = some T →
      T.points ≠ [] := by
    intro T hT
    have hT1 : demoTrajectory = T := Option.some.inj hT
    rw [← hT1]
    decide
  ⟨hne, (cursor_monotone holdSlerp (onNewTrajectory startedState demoTrajectory)).2.2 hne
    [1050, 1150, 1150, 1250]⟩

/-! ### The clock block -/

lemma configured_normalize (s : State) (host_now : Time) (h : Configured s) :
    Configured (normalize s host_now).1 := h

lemma getElem?_ticks (P : Int) :
    ∀ (k : Nat) (start : Time) (i : Nat), i < k →
      (ticks P start k)[i]? = some (start + ((i : Int) + 1) * P) := by
  intro k
  induction k with
  | zero => intro start i hi; omega
  | succ n ih =>
    intro start i hi
    cases i with
    | zero => simp [ticks]
    | succ j =>
      simp only [ticks, List.getElem?_cons_succ]
      rw [ih (start + P) j (by omega)]
      congr 1
      push_cast
      ring

lemma length_ticks (P : Int) : ∀ (k : Nat) (start : Time), (ticks P start k).length = k := by
  intro k
  induction k with
  | zero => intro start; rfl
  | succ n ih => intro start; simp [ticks, ih]

lemma thresholds_of_period_1000000 (s : State) (hP : s.ns_interval = 1000000)
    (hcfg : Configured s) :
    s.ns_higher_bound = 1100000 ∧ s.ns_higher_increment = 1050000
      ∧ s.ns_lower_bound = 900000 ∧ s.ns_lower_increment = 950000 := by
  obtain ⟨h1, h2, h3, h4⟩ := hcfg
  simp only [configureHook, hP] at h1 h2 h3 h4
  exact ⟨h1.trans (by decide), h2.trans (by decide), h3.trans (by decide),
    h4.trans (by decide)⟩

lemma thresholds_of_period_zero (s : State) (hP : s.ns_interval = 0)
    (hcfg : Configured s) :
    s.ns_higher_bound = 0 ∧ s.ns_higher_increment = 0
      ∧ s.ns_lower_bound = 0 ∧ s.ns_lower_increment = 0 := by
  obtain ⟨h1, h2, h3, h4⟩ := hcfg
  simp only [configureHook, hP] at h1 h2 h3 h4
  exact ⟨h1.trans (by decide), h2.trans (by decide), h3.trans (by decide),
    h4.trans (by decide)⟩

lemma thresholds_of_nonneg_period (s : State) (hP : 0 ≤ s.ns_interval)
    (hcfg : Configured s) :
    0 ≤ s.ns_higher_increment ∧ 0 ≤ s.ns_lower_increment
      ∧ s.ns_higher_increment ≤ s.ns_higher_bound := by
  obtain ⟨h1, h2, _, h4⟩ := hcfg
  simp only [configureHook] at h1 h2 h4
  rw [Int.tdiv_eq_ediv (by omega) (by omega)] at h1 h2 h4
  omega

/-- One cycle whose host time is exactly one period of `1,000,000` past
`last_time` passes the host time through. -/
lemma normalize_on_tick (s : State) (hP : s.ns_interval = 1000000)
    (hcfg : Configured s) :
    normalize s (s.last_time + 1000000)
      = ({ s with last_time := s.last_time + 1000000 }, s.last_time + 1000000) := by
  obtain ⟨hb, _, lb, _⟩ := thresholds_of_period_1000000 s hP hcfg
  have h1 : ¬ (s.ns_higher_bound > 0
      ∧ s.last_time + 1000000 - s.last_time ≥ s.ns_higher_bound) := by
    rw [hb]; rintro ⟨_, h⟩; linarith
  have h2 : ¬ (s.ns_lower_bound > 0
      ∧ s.last_time + 1000000 - s.last_time ≤ s.ns_lower_bound
      ∧ s.update_hook_iter > 1) := by
    rw [lb]; rintro ⟨_, h, _⟩; linarith
  simp only [normalize, if_neg h1, if_neg h2]

lemma normalizeAll_ticks (k : Nat) :
    ∀ s : State, s.ns_interval = 1000000 → Configured s →
      normalizeAll s (ticks 1000000 s.last_time k) = ticks 1000000 s.last_time k := by
  induction k with
  | zero => intro s _ _; rfl
  | succ n ih =>
    intro s hP hcfg
    simp only [ticks, normalizeAll, normalize_on_tick s hP hcfg]
    rw [ih { s with last_time := s.last_time + 1000000 } hP hcfg]

/-- One cycle of the clock block on a non-decreasing stream of host times. -/
lemma normalize_step_monotone (s : State) (host_now : Time) (hP : 0 ≤ s.ns_interval)
    (hcfg : Configured s) (h : s.last_time ≤ host_now ∨ SlowEnabled s) :
    s.last_time ≤ (normalize s host_now).2
      ∧ (normalize s host_now).1.last_time = (normalize s host_now).2
      ∧ ∀ next : Time, host_now ≤ next →
          (normalize s host_now).2 ≤ next ∨ SlowEnabled (normalize s host_now).1 := by
  obtain ⟨hhi, hli, hle⟩ := thresholds_of_nonneg_period s hP hcfg
  unfold normalize
  by_cases h1 : s.ns_higher_bound > 0 ∧ host_now - s.last_time ≥ s.ns_higher_bound
  · simp only [if_pos h1]
    refine ⟨by linarith, trivial, fun next hn => Or.inl ?_⟩
    obtain ⟨_, h1b⟩ := h1
    linarith
  · by_cases h2 : s.ns_lower_bound > 0 ∧ host_now - s.last_time ≤ s.ns_lower_bound
        ∧ s.update_hook_iter > 1
    · simp only [if_neg h1, if_pos h2]
      exact ⟨by linarith, trivial, fun next _ => Or.inr ⟨h2.1, h2.2.2⟩⟩
    · simp only [if_neg h1, if_neg h2]
      refine ⟨?_, trivial, fun next hn => Or.inl hn⟩
      rcases h with h | ⟨hlb, hit⟩
      · exact h
      · by_contra hlt
        exact h2 ⟨hlb, by linarith, hit⟩

lemma normalizeAll_chain (raws : List Time) :
    ∀ s : State, 0 ≤ s.ns_interval → Configured s →
      raws.Pairwise (· ≤ ·) →
      ((∀ r ∈ raws, s.last_time ≤ r) ∨ SlowEnabled s) →
      List.Chain (· ≤ ·) s.last_time (normalizeAll s raws) := by
  induction raws with
  | nil => intro s _ _ _ _; exact List.Chain.nil
  | cons r rest ih =>
    intro s hP hcfg hsorted hfirst
    obtain ⟨hr, hrest⟩ := List.pairwise_cons.mp hsorted
    have hs : s.last_time ≤ r ∨ SlowEnabled s :=
      hfirst.imp (fun h => h r (List.mem_cons_self r rest)) id
    obtain ⟨h1, h2, h3⟩ := normalize_step_monotone s r hP hcfg hs
    refine List.Chain.cons h1 ?_
    have := ih (normalize s r).1 hP (configured_normalize s r hcfg) hrest ?_
    · rw [h2] at this
      exact this
    · by_cases hse : SlowEnabled (normalize s r).1
      · exact Or.inr hse
      · refine Or.inl fun r1 hr1 => ?_
        rw [h2]
        exact (h3 r1 (hr r1 hr1)).resolve_right hse

/-- C11: clock dead-band. For a component configured with `P = 1,000,000`,
whatever its `last_time` and cycle counter, feeding the clock block the host
times `last_time + P, last_time + 2P, …, last_time + k·P` in order returns
each host time unchanged. -/
theorem clock_dead_band (s : State) (k : Nat) (hP : s.ns_interval = 1000000)
    (hcfg : Configured s) :
    normalizeAll s (ticks 1000000 s.last_time k) = ticks 1000000 s.last_time k
    ∧ (ticks 1000000 s.last_time k).length = k
    ∧ ∀ i : Nat, i < k →
        (ticks 1000000 s.last_time k)[i]?
          = some (s.last_time + ((i : Int) + 1) * 1000000) :=
  ⟨normalizeAll_ticks k s hP hcfg, length_ticks 1000000 k s.last_time,
    getElem?_ticks 1000000 k s.last_time⟩

/-- Witness for C11: the started component and three periods. -/
theorem clock_dead_band_witness :
    startedState.ns_interval = 1000000 ∧ Configured startedState
    ∧ normalizeAll startedState (ticks 1000000 startedState.last_time 3)
        = ticks 1000000 startedState.last_time 3
    ∧ (ticks 1000000 startedState.last_time 3).length = 3
    ∧ ∀ i : Nat, i < 3 →
        (ticks 1000000 startedState.last_time 3)[i]?
          = some (startedState.last_time + ((i : Int) + 1) * 1000000) :=
  ⟨rfl, ⟨rfl, rfl, rfl, rfl⟩, clock_dead_band startedState 3 rfl ⟨rfl, rfl, rfl, rfl⟩⟩

/-- C12: with `P = 0` the clock block is disabled. For a component configured
with period `0`, whatever its `last_time` and cycle counter, the cycle uses
the host time itself and stores it as `last_time`, changing nothing else. -/
theorem normalization_disabled_at_zero (s : State) (host_now : Time)
    (hP : s.ns_interval = 0) (hcfg : Configured s) :
    (normalize s host_now).2 = host_now
    ∧ (normalize s host_now).1.last_time = host_now
    ∧ (normalize s host_now).1 = { s with last_time := host_now } := by
  obtain ⟨hb, _, lb, _⟩ := thresholds_of_period_zero s hP hcfg
  have h1 : ¬ (s.ns_higher_bound > 0 ∧ host_now - s.last_time ≥ s.ns_higher_bound) := by
    rw [hb]; rintro ⟨h, _⟩; exact lt_irrefl _ h
  have h2 : ¬ (s.ns_lower_bound > 0 ∧ host_now - s.last_time ≤ s.ns_lower_bound
      ∧ s.update_hook_iter > 1) := by
    rw [lb]; rintro ⟨h, _⟩; exact lt_irrefl _ h
  simp only [normalize, if_neg h1, if_neg h2, and_self]

/-- Witness for C12: a component configured with period `0`, cycle counter
forced to `5`, last time `0`, host time `12345`. -/
theorem normalization_disabled_at_zero_witness :
    ({ configureHook (initState 0 (poseAt 0 0 0)) with update_hook_iter := 5 }
        : State).ns_interval = 0
    ∧ Configured { configureHook (initState 0 (poseAt 0 0 0)) with update_hook_iter := 5 }
    ∧ (normalize { configureHook (initState 0 (poseAt 0 0 0)) with update_hook_iter := 5 }
        12345).2 = 12345
    ∧ (normalize { configureHook (initState 0 (poseAt 0 0 0)) with update_hook_iter := 5 }
        12345).1.last_time = 12345
    ∧ (normalize { configureHook (initState 0 (poseAt 0 0 0)) with update_hook_iter := 5 }
        12345).1
        = { ({ configureHook (initState 0 (poseAt 0 0 0)) with update_hook_iter := 5 }
              : State) with last_time := 12345 } :=
  ⟨rfl, ⟨rfl, rfl, rfl, rfl⟩,
    normalization_disabled_at_zero
      { configureHook (initState 0 (poseAt 0 0 0)) with update_hook_iter := 5 } 12345 rfl
      ⟨rfl, rfl, rfl, rfl⟩⟩

/-- C13: monotonic logical time. For a component configured with a period
`P ≥ 0` and host times that are non-decreasing and start at or after
`last_time`, the values of `now` used by successive cycles are non-decreasing,
and none is before the initial `last_time`. -/
theorem logical_time_monotone (s : State) (raws : List Time)
    (hP : 0 ≤ s.ns_interval) (hcfg : Configured s)
    (hsorted : raws.Pairwise (· ≤ ·))
    (hfirst : ∀ r ∈ raws.head?, s.last_time ≤ r) :
    (normalizeAll s raws).Pairwise (· ≤ ·)
    ∧ ∀ o ∈ normalizeAll s raws, s.last_time ≤ o := by
  have hall : ∀ r ∈ raws, s.last_time ≤ r := by
    cases raws with
    | nil => intro r hr; cases hr
    | cons a rest =>
      have ha : s.last_time ≤ a := hfirst a rfl
      obtain ⟨hrest, _⟩ := List.pairwise_cons.mp hsorted
      intro r hr
      rcases List.mem_cons.mp hr with h | h
      · rw [h]; exact ha
      · exact le_trans ha (hrest r h)
  have hchain := normalizeAll_chain raws s hP hcfg hsorted (Or.inl hall)
  have hpair := List.chain_iff_pairwise.mp hchain
  obtain ⟨h1, h2⟩ := List.pairwise_cons.mp hpair
  exact ⟨h2, h1⟩

/-- Witness for C13: the started component (period `1,000,000`, last time
`0`) and host times with a stall, a jump and a repeat. -/
theorem logical_time_monotone_witness :
    (0 : Int) ≤ startedState.ns_interval ∧ Configured startedState
    ∧ ([0, 500000, 3000000, 3000000, 4000001] : List Time).Pairwise (· ≤ ·)
    ∧ (∀ r ∈ ([0, 500000, 3000000, 3000000, 4000001] : List Time).head?,
        startedState.last_time ≤ r)
    ∧ (normalizeAll startedState [0, 500000, 3000000, 3000000, 4000001]).Pairwise (· ≤ ·)
    ∧ ∀ o ∈ normalizeAll startedState [0, 500000, 3000000, 3000000, 4000001],
        startedState.last_time ≤ o :=
  ⟨by decide, ⟨rfl, rfl, rfl, rfl⟩, by decide, by decide,
    logical_time_monotone startedState [0, 500000, 3000000, 3000000, 4000001]
      (by decide) ⟨rfl, rfl, rfl, rfl⟩ (by decide) (by decide)⟩

/-- C14: result of `startHook`. It returns `false` exactly when the
initial-pose flag is unset and the position port has no data, or the
synchronisation port delivers `false`. When it returns `true`, the setpoint is
the configured initial pose if the flag is set and the pose read from the
port if not, both flags are `false` and the cycle counter is `0`. -/
theorem startHook_result (s : State) (position_read : Option Pose)
    (synchronised_read : Option Bool) (host_now : Time) :
    ((startHook s position_read synchronised_read host_now).2 = false
      ↔ (s.activate_pose_init_property = false ∧ position_read = none)
        ∨ synchronised_read = some false)
    ∧ ((startHook s position_read synchronised_read host_now).2 = true →
        (s.activate_pose_init_property = true →
          (startHook s position_read synchronised_read host_now).1.setpoint
            = s.init_setpoint_property)
        ∧ (s.activate_pose_init_property = false →
          position_read
            = some (startHook s position_read synchronised_read host_now).1.setpoint)
        ∧ (startHook s position_read synchronised_read host_now).1.trajectory_active
            = false
        ∧ (startHook s position_read synchronised_read host_now).1.last_point_not_set
            = false
        ∧ (startHook s position_read synchronised_read host_now).1.update_hook_iter
            = 0) := by
  unfold startHook
  cases hflag : s.activate_pose_init_property <;> cases position_read <;>
    cases synchronised_read with
    | none => simp
    | some b => cases b <;> simp

/-- Witness for C14: start from the observed pose `(1, 2, 3)` with the
synchronisation port delivering `true`. -/
theorem startHook_result_witness :
    (startHook (configureHook (initState 1000000 (poseAt 0 0 0)))
        (some (poseAt 1 2 3)) (some true) 7).2 = true
    ∧ (startHook (configureHook (initState 1000000 (poseAt 0 0 0)))
        (some (poseAt 1 2 3)) (some true) 7).1.setpoint = poseAt 1 2 3
    ∧ (startHook (configureHook (initState 1000000 (poseAt 0 0 0)))
        (some (poseAt 1 2 3)) (some true) 7).1.trajectory_active = false
    ∧ (startHook (configureHook (initState 1000000 (poseAt 0 0 0)))
        (some (poseAt 1 2 3)) (some true) 7).1.last_point_not_set = false
    ∧ (startHook (configureHook (initState 1000000 (poseAt 0 0 0)))
        (some (poseAt 1 2 3)) (some true) 7).1.update_hook_iter = 0 :=
  have h := (startHook_result (configureHook (initState 1000000 (poseAt 0 0 0)))
    (some (poseAt 1 2 3)) (some true) 7).2 rfl
  ⟨rfl, (Option.some.inj (h.2.1 rfl)).symm, h.2.2.1, h.2.2.2.1, h.2.2.2.2⟩

/-! ### What the scan computes -/

/-- The loop passes only points at or before `now` and stops on a point
after `now`. -/
lemma scanLoop_spec (stamp : Time) (points : List CartesianTrajectoryPoint) (now : Time) :
    ∀ fuel ptr, points.length ≤ ptr + fuel →
      (∀ i p, ptr ≤ i → i < scanLoop stamp points now fuel ptr → points[i]? = some p →
        stamp + p.time_from_start ≤ now)
      ∧ (∀ p, points[scanLoop stamp points now fuel ptr]? = some p →
        now < stamp + p.time_from_start) := by
  intro fuel
  induction fuel with
  | zero =>
    intro ptr h
    simp only [scanLoop]
    refine ⟨fun i p h1 h2 _ => absurd h2 (not_lt.mpr h1), fun p hp => ?_⟩
    have := List.getElem?_eq_none (l := points) (n := ptr) (by omega)
    rw [this] at hp
    cases hp
  | succ n ih =>
    intro ptr h
    unfold scanLoop
    by_cases h1 : ptr < points.length
    · simp only [h1, dite_true]
      by_cases h2 : stamp + (points.get ⟨ptr, h1⟩).time_from_start > now
      · simp only [h2, if_true]
        refine ⟨fun i p h3 h4 _ => absurd h4 (not_lt.mpr h3), fun p hp => ?_⟩
        rw [List.getElem?_eq_getElem h1] at hp
        cases hp
        exact h2
      · simp only [h2, if_false]
        obtain ⟨ih1, ih2⟩ := ih (ptr + 1) (by omega)
        refine ⟨fun i p h3 h4 hp => ?_, ih2⟩
        rcases Nat.eq_or_lt_of_le h3 with h5 | h5
        · subst h5
          rw [List.getElem?_eq_getElem h1] at hp
          cases hp
          exact not_lt.mp h2
        · exact ih1 i p h5 h4 hp
    · simp only [h1, dite_false]
      refine ⟨fun i p h3 h4 _ => absurd h4 (not_lt.mpr h3), fun p hp => ?_⟩
      have := List.getElem?_eq_none (l := points) (n := ptr) (by omega)
      rw [this] at hp
      cases hp

/-- The loop reads no point below the index it starts from. -/
lemma scanLoop_congr (stamp : Time) (points points1 : List CartesianTrajectoryPoint)
    (now : Time) (hlen : points1.length = points.length) :
    ∀ fuel ptr, (∀ i, ptr ≤ i → points1[i]? = points[i]?) →
      scanLoop stamp points1 now fuel ptr = scanLoop stamp points now fuel ptr := by
  intro fuel
  induction fuel with
  | zero => intro ptr _; rfl
  | succ n ih =>
    intro ptr h
    unfold scanLoop
    by_cases h1 : ptr < points.length
    · have h1a : ptr < points1.length := hlen ▸ h1
      have heq : points1.get ⟨ptr, h1a⟩ = points.get ⟨ptr, h1⟩ := by
        have := h ptr le_rfl
        rw [List.getElem?_eq_getElem h1a, List.getElem?_eq_getElem h1] at this
        exact Option.some.inj this
      simp only [h1, h1a, dite_true, heq]
      rw [ih (ptr + 1) (fun i hi => h i (by omega))]
    · have h1a : ¬ ptr < points1.length := hlen ▸ h1
      simp only [h1, h1a, dite_false]

lemma scan_le_length (T : CartesianTrajectory) (now : Time) (ptr : Nat)
    (h : ptr ≤ T.points.length) : scan T now ptr ≤ T.points.length :=
  scanLoop_le_length _ _ _ _ _ h

lemma scan_spec (T : CartesianTrajectory) (now : Time) (ptr : Nat) :
    (∀ i p, ptr ≤ i → i < scan T now ptr → T.points[i]? = some p →
        T.stamp + p.time_from_start ≤ now)
      ∧ (∀ p, T.points[scan T now ptr]? = some p → now < T.stamp + p.time_from_start) :=
  scanLoop_spec T.stamp T.points now _ ptr (by omega)

/-- A completed step either skipped the trajectory block or left the cursor
where the scan stopped. -/
lemma advance_cases (slerp : Slerp) (s s1 : State) (T : CartesianTrajectory) (now : Time)
    (hT : s.trajectory = some T) (h : advance slerp s now = some s1) :
    (¬ (s.trajectory_active = true ∧ T.stamp < now) ∧ s1 = s)
      ∨ ((s.trajectory_active = true ∧ T.stamp < now)
          ∧ s1.trajectory_ptr = scan T now s.trajectory_ptr) := by
  by_cases hg : s.trajectory_active = true ∧ T.stamp < now
  · refine Or.inr ⟨hg, ?_⟩
    obtain ⟨hact, hstart⟩ := hg
    by_cases hc : scan T now s.trajectory_ptr < T.points.length
    · rw [advance_interpolating slerp s T now hT hact hstart hc] at h
      cases h
      rfl
    · by_cases hflag : s.last_point_not_set = true
      · unfold advance at h
        simp only [hT, hact, hstart, and_self, if_true, hc, if_false, hflag,
          Option.map_eq_some'] at h
        obtain ⟨p, _, rfl⟩ := h
        rfl
      · rw [advance_latched slerp s T now hT hact hstart (not_lt.mp hc)
          (by simpa using hflag)] at h
        cases h
        rfl
  · refine Or.inl ⟨hg, ?_⟩
    have := advance_guard_false slerp s now (fun T1 hT1 => by
      rw [hT] at hT1; cases hT1; exact hg)
    rw [this] at h
    cases h
    rfl

/-! ### Following a trajectory with non-decreasing times -/

lemma passed_onNewTrajectory (s : State) (T : CartesianTrajectory) (m : Time) :
    Passed T (onNewTrajectory s T) m :=
  ⟨rfl, rfl, Nat.zero_le _, fun i _ hi _ => absurd hi (Nat.not_lt_zero i)⟩

lemma advance_passed (slerp : Slerp) (T : CartesianTrajectory) (s s1 : State)
    (m now : Time) (hs : Passed T s m) (hm : m ≤ now)
    (h : advance slerp s now = some s1) : Passed T s1 now := by
  obtain ⟨hT, hact, hptr, hbelow⟩ := hs
  rcases advance_cases slerp s s1 T now hT h with ⟨_, rfl⟩ | ⟨_, hc⟩
  · exact ⟨hT, hact, hptr, fun i p hi hp => le_trans (hbelow i p hi hp) hm⟩
  · obtain ⟨ht, ha, _, _⟩ := advance_frame slerp s s1 now h
    refine ⟨ht.trans hT, ha.trans hact, hc ▸ scan_le_length T now _ hptr, ?_⟩
    intro i p hi hp
    rw [hc] at hi
    by_cases hlt : i < s.trajectory_ptr
    · exact le_trans (hbelow i p hlt hp) hm
    · exact (scan_spec T now s.trajectory_ptr).1 i p (not_lt.mp hlt) hi hp

lemma advanceAll_passed (slerp : Slerp) (T : CartesianTrajectory) (before : List Time) :
    ∀ (s s1 : State) (m now : Time), Passed T s m → before.Pairwise (· ≤ ·) →
      (∀ t ∈ before, m ≤ t) → (∀ t ∈ before, t ≤ now) → m ≤ now →
      advanceAll slerp s before = some s1 → Passed T s1 now := by
  induction before with
  | nil =>
    intro s s1 m now hs _ _ _ hm h
    simp only [advanceAll, Option.some.injEq] at h
    subst h
    obtain ⟨hT, hact, hptr, hbelow⟩ := hs
    exact ⟨hT, hact, hptr, fun i p hi hp => le_trans (hbelow i p hi hp) hm⟩
  | cons t rest ih =>
    intro s s1 m now hs hsorted hge hle _ h
    simp only [advanceAll, Option.bind_eq_some] at h
    obtain ⟨s2, h2, h3⟩ := h
    obtain ⟨hrest, hsorted1⟩ := List.pairwise_cons.mp hsorted
    have hs2 : Passed T s2 t :=
      advance_passed slerp T s s2 m t hs (hge t (List.mem_cons_self t rest)) h2
    exact ih s2 s1 t now hs2 hsorted1 hrest
      (fun u hu => hle u (List.mem_cons_of_mem t hu))
      (hle t (List.mem_cons_self t rest)) h3

/-- The state reached from `onNewTrajectory(T)` through calls at
non-decreasing times, seen from a time `now` not before any of them. -/
lemma passed_of_run (slerp : Slerp) (s0 s : State) (T : CartesianTrajectory)
    (before : List Time) (now : Time)
    (hnows : (before ++ [now]).Pairwise (· ≤ ·))
    (hrun : advanceAll slerp (onNewTrajectory s0 T) before = some s) :
    Passed T s now := by
  obtain ⟨hsorted, _, hcross⟩ := List.pairwise_append.mp hnows
  have hle : ∀ t ∈ before, t ≤ now := fun t ht =>
    hcross t ht now (List.mem_singleton.mpr rfl)
  cases before with
  | nil =>
    simp only [advanceAll, Option.some.injEq] at hrun
    subst hrun
    exact passed_onNewTrajectory s0 T now
  | cons t rest =>
    obtain ⟨hrest, _⟩ := List.pairwise_cons.mp hsorted
    refine advanceAll_passed slerp T (t :: rest) _ s t now
      (passed_onNewTrajectory s0 T t) hsorted ?_ hle
      (hle t (List.mem_cons_self t rest)) hrun
    intro u hu
    rcases List.mem_cons.mp hu with h | h
    · rw [h]
    · exact hrest u h

/-- A list whose first `c` elements satisfy `q` and whose other elements do
not has exactly `c` elements satisfying `q`. -/
lemma countP_of_prefix {α : Type} (q : α → Bool) :
    ∀ (l : List α) (c : Nat), c ≤ l.length →
      (∀ i p, i < c → l[i]? = some p → q p = true) →
      (∀ i p, c ≤ i → l[i]? = some p → q p = false) → l.countP q = c := by
  intro l
  induction l with
  | nil => intro c hc _ _; simpa using (Nat.le_zero.mp hc).symm
  | cons a l ih =>
    intro c hc hlo hhi
    cases c with
    | zero =>
      have ha : q a = false := hhi 0 a le_rfl (by simp)
      have := ih 0 (Nat.zero_le _) (fun i _ hi _ => absurd hi (Nat.not_lt_zero i))
        (fun i p _ hp => hhi (i + 1) p (Nat.zero_le _) (by simpa using hp))
      simp [List.countP_cons, ha, this]
    | succ n =>
      have ha : q a = true := hlo 0 a (Nat.succ_pos n) (by simp)
      have := ih n (by simpa using hc)
        (fun i p hi hp => hlo (i + 1) p (by omega) (by simpa using hp))
        (fun i p hi hp => hhi (i + 1) p (by omega) (by simpa using hp))
      simp [List.countP_cons, ha, this]

/-- With non-decreasing offsets, an index at which the scan's stopping
conditions hold is the number of points at or before `now`. -/
lemma reachedCount_eq (T : CartesianTrajectory) (now : Time) (c : Nat)
    (hmono : T.points.Pairwise fun a b => a.time_from_start ≤ b.time_from_start)
    (hc : c ≤ T.points.length)
    (hlo : ∀ i p, i < c → T.points[i]? = some p → T.stamp + p.time_from_start ≤ now)
    (hstop : ∀ p, T.points[c]? = some p → now < T.stamp + p.time_from_start) :
    reachedCount T now = c := by
  unfold reachedCount
  refine countP_of_prefix _ T.points c hc (fun i p hi hp => ?_) (fun i p hi hp => ?_)
  · exact decide_eq_true (hlo i p hi hp)
  · have hil : i < T.points.length := by
      by_contra hge
      rw [List.getElem?_eq_none (not_lt.mp hge)] at hp
      cases hp
    have hcl : c < T.points.length := lt_of_le_of_lt hi hil
    have hstop1 := hstop _ (List.getElem?_eq_getElem hcl)
    have hle : T.points[c].time_from_start ≤ p.time_from_start := by
      rcases Nat.eq_or_lt_of_le hi with h | h
      · subst h
        rw [List.getElem?_eq_getElem hcl] at hp
        cases hp
        exact le_rfl
      · have hp1 : T.points[i] = p := by
          rw [List.getElem?_eq_getElem hil] at hp
          exact Option.some.inj hp
        rw [← hp1]
        exact List.pairwise_iff_getElem.mp hmono c i hcl hil h
    exact decide_eq_false (not_le.mpr (lt_of_lt_of_le hstop1 (add_le_add_left hle _)))

lemma toSec_le_toSec {a b : Time} (h : a ≤ b) : toSec a ≤ toSec b := by
  unfold toSec
  have : (a : ℚ) ≤ (b : ℚ) := by exact_mod_cast h
  exact div_le_div_of_nonneg_right this (by norm_num)

lemma toSec_lt_toSec {a b : Time} (h : a < b) : toSec a < toSec b := by
  unfold toSec
  have : (a : ℚ) < (b : ℚ) := by exact_mod_cast h
  exact div_lt_div_of_pos_right this (by norm_num)

lemma interpolateScalar_fraction_bounds (t0 t1 t : ℚ) (h0 : t0 ≤ t) (h1 : t < t1) :
    0 ≤ interpolateScalar 0 1 t0 t1 t ∧ interpolateScalar 0 1 t0 t1 t < 1 := by
  have hd : 0 < t1 - t0 := by linarith
  unfold interpolateScalar
  simp only [sub_zero, one_mul, zero_add]
  exact ⟨div_nonneg (by linarith) (le_of_lt hd), (div_lt_one hd).mpr (by linarith)⟩

lemma slerpReducesAtEnds_holdSlerp : SlerpReducesAtEnds holdSlerp := by
  intro q0 q1
  constructor
  · simp [holdSlerp]
  · simp [holdSlerp]

/-- C15: orientation boundary exactness. The orientation computed by the
point overload is `slerp a q0 q1` with `a` the scalar interpolation of `0` and
`1` over the two absolute times; for points with different offsets `a` is `0`
at the first point's time and `1` at the second's, so for a spherical
interpolation that meets the spec's boundary requirement the orientation is
the first point's at its time and the second point's at its time. -/
theorem orientation_boundary_exact (slerp : Slerp) (stamp : Time)
    (a b : CartesianTrajectoryPoint) (t : Time) (hslerp : SlerpReducesAtEnds slerp)
    (hab : a.time_from_start ≠ b.time_from_start) :
    (interpolate slerp stamp a b t).orientation
        = slerp (interpolateScalar 0 1 (toSec (stamp + a.time_from_start))
            (toSec (stamp + b.time_from_start)) (toSec t))
            a.pose.orientation b.pose.orientation
    ∧ interpolateScalar 0 1 (toSec (stamp + a.time_from_start))
        (toSec (stamp + b.time_from_start)) (toSec (stamp + a.time_from_start)) = 0
    ∧ interpolateScalar 0 1 (toSec (stamp + a.time_from_start))
        (toSec (stamp + b.time_from_start)) (toSec (stamp + b.time_from_start)) = 1
    ∧ (interpolate slerp stamp a b (stamp + a.time_from_start)).orientation
        = a.pose.orientation
    ∧ (interpolate slerp stamp a b (stamp + b.time_from_start)).orientation
        = b.pose.orientation := by
  have hsec : toSec (stamp + a.time_from_start) ≠ toSec (stamp + b.time_from_start) := by
    intro h
    exact hab (Int.add_left_cancel (toSec_injective h))
  refine ⟨rfl, interpolateScalar_at_t0 _ _ _ _, interpolateScalar_at_t1 _ _ _ _ hsec, ?_, ?_⟩
  · simp only [interpolate, interpolateScalar_at_t0]
    exact (hslerp _ _).1
  · simp only [interpolate, interpolateScalar_at_t1 _ _ _ _ hsec]
    exact (hslerp _ _).2

/-- Witness for C15: the two points of the demonstration trajectory with the
stand-in spherical interpolation. -/
theorem orientation_boundary_exact_witness :
    SlerpReducesAtEnds holdSlerp
    ∧ (interpolate holdSlerp 1000 ⟨100, poseAt 1 0 0⟩ ⟨200, poseAt 2 0 0⟩
        (1000 + (100 : Duration))).orientation = (poseAt 1 0 0).orientation
    ∧ (interpolate holdSlerp 1000 ⟨100, poseAt 1 0 0⟩ ⟨200, poseAt 2 0 0⟩
        (1000 + (200 : Duration))).orientation = (poseAt 2 0 0).orientation :=
  ⟨slerpReducesAtEnds_holdSlerp,
    (orientation_boundary_exact holdSlerp 1000 ⟨100, poseAt 1 0 0⟩ ⟨200, poseAt 2 0 0⟩ 0
      slerpReducesAtEnds_holdSlerp (by decide)).2.2.2⟩

/-- C17: scan postcondition. In a state holding an active trajectory `T` that
started before `now`, with the cursor at most the point count, a completed
`advance` leaves the cursor at `c = scan T now cursor`, and it completes when
`T` has a point. `c` lies between the old cursor and the point count, every
point from the old cursor up to `c` has an absolute time at or before `now`,
and the point at `c`, if there is one, is after `now`: `c` is the smallest
index from the old cursor on whose point is after `now`, or the point count.
The value of `c` does not depend on the points below the old cursor. -/
theorem scan_postcondition (slerp : Slerp) (s : State) (T : CartesianTrajectory)
    (now : Time) (hT : s.trajectory = some T) (hact : s.trajectory_active = true)
    (hstart : T.stamp < now) (hptr : s.trajectory_ptr ≤ T.points.length) :
    (∀ s1, advance slerp s now = some s1 →
        s1.trajectory_ptr = scan T now s.trajectory_ptr)
    ∧ (T.points ≠ [] → ∃ s1, advance slerp s now = some s1
        ∧ s1.trajectory_ptr = scan T now s.trajectory_ptr)
    ∧ s.trajectory_ptr ≤ scan T now s.trajectory_ptr
    ∧ scan T now s.trajectory_ptr ≤ T.points.length
    ∧ (∀ i p, s.trajectory_ptr ≤ i → i < scan T now s.trajectory_ptr →
        T.points[i]? = some p → T.stamp + p.time_from_start ≤ now)
    ∧ (∀ p, T.points[scan T now s.trajectory_ptr]? = some p →
        now < T.stamp + p.time_from_start)
    ∧ (∀ T1 : CartesianTrajectory, T1.stamp = T.stamp →
        T1.points.length = T.points.length →
        (∀ i, s.trajectory_ptr ≤ i → T1.points[i]? = T.points[i]?) →
        scan T1 now s.trajectory_ptr = scan T now s.trajectory_ptr) := by
  have hcur : ∀ s1, advance slerp s now = some s1 →
      s1.trajectory_ptr = scan T now s.trajectory_ptr := by
    intro s1 h
    rcases advance_cases slerp s s1 T now hT h with ⟨hg, _⟩ | ⟨_, hc⟩
    · exact absurd ⟨hact, hstart⟩ hg
    · exact hc
  refine ⟨hcur, fun hne => ?_, le_scan T now _, scan_le_length T now _ hptr,
    (scan_spec T now _).1, (scan_spec T now _).2, fun T1 hs hl hi => ?_⟩
  · obtain ⟨s1, h1⟩ := advance_completes slerp s now (fun T2 hT2 => by
      rw [hT] at hT2; cases hT2; exact hne)
    exact ⟨s1, h1, hcur s1 h1⟩
  · unfold scan
    rw [hs, hl]
    exact scanLoop_congr T.stamp T.points T1.points now hl _ _ hi

/-- Witness for C17: the demonstration trajectory right after it was received,
at `now = 1150`, where the scan stops at index `1`. -/
theorem scan_postcondition_witness :
    (onNewTrajectory startedState demoTrajectory).trajectory = some demoTrajectory
    ∧ (onNewTrajectory startedState demoTrajectory).trajectory_active = true
    ∧ demoTrajectory.stamp < (1150 : Time)
    ∧ (onNewTrajectory startedState demoTrajectory).trajectory_ptr
        ≤ demoTrajectory.points.length
    ∧ scan demoTrajectory 1150 (onNewTrajectory startedState demoTrajectory).trajectory_ptr
        = 1
    ∧ ∃ s1, advance holdSlerp (onNewTrajectory startedState demoTrajectory) 1150 = some s1
        ∧ s1.trajectory_ptr
            = scan demoTrajectory 1150
                (onNewTrajectory startedState demoTrajectory).trajectory_ptr :=
  ⟨rfl, rfl, by decide, by decide, by decide,
    (scan_postcondition holdSlerp (onNewTrajectory startedState demoTrajectory)
      demoTrajectory 1150 rfl rfl (by decide) (by decide)).2.1 (by decide)⟩

/-- The two points handed to `interpolate` by an interpolating step, and the
times that bracket `now`. -/
lemma interpolating_segment (slerp : Slerp) (s : State) (T : CartesianTrajectory)
    (now : Time) (hs : Passed T s now) (hstart : T.stamp < now)
    (hc : scan T now s.trajectory_ptr < T.points.length) :
    ∃ p0 p1,
      advance slerp s now
        = some { s with trajectory_ptr := scan T now s.trajectory_ptr
                        setpoint := interpolate slerp T.stamp p0 p1 now }
      ∧ (scan T now s.trajectory_ptr = 0 → p0 = ⟨0, s.old_point⟩)
      ∧ (scan T now s.trajectory_ptr ≠ 0 →
          T.points[scan T now s.trajectory_ptr - 1]? = some p0)
      ∧ T.points[scan T now s.trajectory_ptr]? = some p1
      ∧ T.stamp + p0.time_from_start ≤ now
      ∧ now < T.stamp + p1.time_from_start := by
  obtain ⟨hT, hact, _, hbelow⟩ := hs
  have hm : scan T now s.trajectory_ptr - 1 < T.points.length :=
    lt_of_le_of_lt (Nat.sub_le _ _) hc
  have h1 : T.points[scan T now s.trajectory_ptr]?
      = some (T.points.get ⟨scan T now s.trajectory_ptr, hc⟩) :=
    List.getElem?_eq_getElem hc
  have hstop := (scan_spec T now s.trajectory_ptr).2 _ h1
  have hadv := advance_interpolating slerp s T now hT hact hstart hc
  by_cases h0 : scan T now s.trajectory_ptr = 0
  · refine ⟨⟨0, s.old_point⟩, T.points.get ⟨scan T now s.trajectory_ptr, hc⟩, ?_,
      fun _ => rfl, fun h => absurd h0 h, h1, ?_, hstop⟩
    · rw [hadv, if_pos h0]
    · show T.stamp + (0 : Duration) ≤ now
      rw [add_zero]
      exact le_of_lt hstart
  · have h2 : T.points[scan T now s.trajectory_ptr - 1]?
        = some (T.points.get ⟨scan T now s.trajectory_ptr - 1, hm⟩) :=
      List.getElem?_eq_getElem hm
    refine ⟨T.points.get ⟨scan T now s.trajectory_ptr - 1, hm⟩,
      T.points.get ⟨scan T now s.trajectory_ptr, hc⟩, ?_,
      fun h => absurd h h0, fun _ => h2, h1, ?_, hstop⟩
    · rw [hadv, if_neg h0]
    · by_cases hlt : scan T now s.trajectory_ptr - 1 < s.trajectory_ptr
      · exact hbelow _ _ hlt h2
      · exact (scan_spec T now s.trajectory_ptr).1 _ _ (not_lt.mp hlt)
          (Nat.sub_lt (Nat.pos_of_ne_zero h0) Nat.one_pos) h2

/-- C18: no zero-length or extrapolated segment is evaluated. Let `s` be
reached from `onNewTrajectory(T)`, for any `T`, through completed `advance`
calls, and let the times of those calls and `now` be non-decreasing. If the
call at `now` interpolates (the trajectory has started and the scan stops on
a valid index), it completes with the setpoint `interpolate(p0, p1, now)` for
the two points the code selects, and their absolute times satisfy
`t0 ≤ now < t1`; so `t1 - t0` is positive in seconds and the interpolation
fraction lies in `[0, 1)`. -/
theorem interpolated_segment_brackets_now (slerp : Slerp) (s0 s : State)
    (T : CartesianTrajectory) (before : List Time) (now : Time)
    (hnows : (before ++ [now]).Pairwise (· ≤ ·))
    (hrun : advanceAll slerp (onNewTrajectory s0 T) before = some s)
    (hstart : T.stamp < now)
    (hc : scan T now s.trajectory_ptr < T.points.length) :
    ∃ p0 p1,
      advance slerp s now
        = some { s with trajectory_ptr := scan T now s.trajectory_ptr
                        setpoint := interpolate slerp T.stamp p0 p1 now }
      ∧ (scan T now s.trajectory_ptr = 0 → p0 = ⟨0, s.old_point⟩)
      ∧ (scan T now s.trajectory_ptr ≠ 0 →
          T.points[scan T now s.trajectory_ptr - 1]? = some p0)
      ∧ T.points[scan T now s.trajectory_ptr]? = some p1
      ∧ T.stamp + p0.time_from_start ≤ now
      ∧ now < T.stamp + p1.time_from_start
      ∧ 0 < toSec (T.stamp + p1.time_from_start) - toSec (T.stamp + p0.time_from_start)
      ∧ 0 ≤ interpolateScalar 0 1 (toSec (T.stamp + p0.time_from_start))
              (toSec (T.stamp + p1.time_from_start)) (toSec now)
      ∧ interpolateScalar 0 1 (toSec (T.stamp + p0.time_from_start))
            (toSec (T.stamp + p1.time_from_start)) (toSec now) < 1 := by
  have hs : Passed T s now := passed_of_run slerp s0 s T before now hnows hrun
  obtain ⟨p0, p1, hadv, h0, h1, h2, hlo, hhi⟩ :=
    interpolating_segment slerp s T now hs hstart hc
  have hfrac := interpolateScalar_fraction_bounds _ _ _ (toSec_le_toSec hlo)
    (toSec_lt_toSec hhi)
  exact ⟨p0, p1, hadv, h0, h1, h2, hlo, hhi,
    sub_pos.mpr (toSec_lt_toSec (lt_of_le_of_lt hlo hhi)), hfrac.1, hfrac.2⟩

/-- A trajectory with a duplicated and a decreasing offset: points at
`+100`, `+100`, `+50`, `+300` from the start `1000`. -/
lemma advanceAll_irregular_run :
    advanceAll holdSlerp
        (onNewTrajectory startedState
          { stamp := 1000
            points := [⟨100, poseAt 1 0 0⟩, ⟨100, poseAt 2 0 0⟩, ⟨50, poseAt 3 0 0⟩,
              ⟨300, poseAt 4 0 0⟩] }) [1050]
      = some { onNewTrajectory startedState
          { stamp := 1000
            points := [⟨100, poseAt 1 0 0⟩, ⟨100, poseAt 2 0 0⟩, ⟨50, poseAt 3 0 0⟩,
              ⟨300, poseAt 4 0 0⟩] } with
          setpoint := interpolate holdSlerp 1000 ⟨0, poseAt 0 0 0⟩ ⟨100, poseAt 1 0 0⟩ 1050 } :=
  rfl

/-- Witness for C18: the irregular trajectory after a call at `1050`, then
the call at `1100`, which passes the three points at or before `1100` and
interpolates towards the point at `1300`. -/
theorem interpolated_segment_brackets_now_witness :
    ∃ (s : State) (p0 p1 : CartesianTrajectoryPoint),
      advanceAll holdSlerp
        (onNewTrajectory startedState
          { stamp := 1000
            points := [⟨100, poseAt 1 0 0⟩, ⟨100, poseAt 2 0 0⟩, ⟨50, poseAt 3 0 0⟩,
              ⟨300, poseAt 4 0 0⟩] }) [1050] = some s
      ∧ (∃ s1, advance holdSlerp s 1100 = some s1 ∧ s1.trajectory_ptr = 3)
      ∧ (1000 : Time) + p0.time_from_start ≤ 1100
      ∧ (1100 : Time) < 1000 + p1.time_from_start
      ∧ 0 ≤ interpolateScalar 0 1 (toSec (1000 + p0.time_from_start))
              (toSec (1000 + p1.time_from_start)) (toSec 1100)
      ∧ interpolateScalar 0 1 (toSec (1000 + p0.time_from_start))
            (toSec (1000 + p1.time_from_start)) (toSec 1100) < 1 :=
  have h := interpolated_segment_brackets_now holdSlerp startedState _
    { stamp := 1000
      points := [⟨100, poseAt 1 0 0⟩, ⟨100, poseAt 2 0 0⟩, ⟨50, poseAt 3 0 0⟩,
        ⟨300, poseAt 4 0 0⟩] } [1050] 1100 (by decide) advanceAll_irregular_run
    (by decide) (by decide)
  Exists.elim h fun p0 h1 => Exists.elim h1 fun p1 h2 =>
    ⟨_, p0, p1, advanceAll_irregular_run, ⟨_, h2.1, rfl⟩, h2.2.2.2.2.1, h2.2.2.2.2.2.1,
      h2.2.2.2.2.2.2.2.1, h2.2.2.2.2.2.2.2.2⟩

/-- C19: the incremental scan equals a full search. Let `T` have
non-decreasing offsets, and let the times of the `advance` calls after
`onNewTrajectory(T)` be non-decreasing. After every completed call at a time
`now` past `T.stamp`, the cursor is the number of points whose absolute time
is at or before `now`, which is also where a scan from index `0` stops; and
when `T` has a point, the calls do complete. -/
theorem incremental_scan_eq_full_search (slerp : Slerp) (s0 : State)
    (T : CartesianTrajectory) (before : List Time) (now : Time)
    (hmono : T.points.Pairwise fun a b => a.time_from_start ≤ b.time_from_start)
    (hnows : (before ++ [now]).Pairwise (· ≤ ·))
    (hstart : T.stamp < now) :
    (∀ s s1, advanceAll slerp (onNewTrajectory s0 T) before = some s →
        advance slerp s now = some s1 →
        s1.trajectory_ptr = reachedCount T now ∧ s1.trajectory_ptr = scan T now 0)
    ∧ (T.points ≠ [] →
        ∃ s s1, advanceAll slerp (onNewTrajectory s0 T) before = some s
          ∧ advance slerp s now = some s1
          ∧ s1.trajectory_ptr = reachedCount T now) := by
  have hfull : reachedCount T now = scan T now 0 :=
    reachedCount_eq T now (scan T now 0) hmono (scan_le_length T now 0 (Nat.zero_le _))
      (fun i p hi hp => (scan_spec T now 0).1 i p (Nat.zero_le i) hi hp)
      (scan_spec T now 0).2
  have hcur : ∀ s s1, advanceAll slerp (onNewTrajectory s0 T) before = some s →
      advance slerp s now = some s1 → s1.trajectory_ptr = reachedCount T now := by
    intro s s1 hrun hadv
    obtain ⟨hT, hact, hptr, hbelow⟩ := passed_of_run slerp s0 s T before now hnows hrun
    rcases advance_cases slerp s s1 T now hT hadv with ⟨hg, _⟩ | ⟨_, hc⟩
    · exact absurd ⟨hact, hstart⟩ hg
    · rw [hc]
      refine (reachedCount_eq T now _ hmono (scan_le_length T now _ hptr) ?_
        (scan_spec T now s.trajectory_ptr).2).symm
      intro i p hi hp
      by_cases hlt : i < s.trajectory_ptr
      · exact hbelow i p hlt hp
      · exact (scan_spec T now s.trajectory_ptr).1 i p (not_lt.mp hlt) hi hp
  refine ⟨fun s s1 hrun hadv => ⟨hcur s s1 hrun hadv, ?_⟩, fun hne => ?_⟩
  · rw [hcur s s1 hrun hadv, hfull]
  · have hne0 : ∀ T1, (onNewTrajectory s0 T).trajectory = some T1 → T1.points ≠ [] := by
      intro T1 hT1
      have : T = T1 := Option.some.inj hT1
      rw [← this]
      exact hne
    obtain ⟨s, hrun⟩ := advanceAll_completes slerp before (onNewTrajectory s0 T) hne0
    obtain ⟨ht, _⟩ := advanceAll_frame slerp before _ s hrun
    obtain ⟨s1, hadv⟩ := advance_completes slerp s now (fun T1 hT1 => hne0 T1 (ht ▸ hT1))
    exact ⟨s, s1, hrun, hadv, hcur s s1 hrun hadv⟩

/-- Witness for C19: the demonstration trajectory followed through `1050`
and `1150`, then the call at `1250`, past both points. -/
theorem incremental_scan_eq_full_search_witness :
    (demoTrajectory.points.Pairwise fun a b => a.time_from_start ≤ b.time_from_start)
    ∧ (([1050, 1150] : List Time) ++ [1250]).Pairwise (· ≤ ·)
    ∧ demoTrajectory.stamp < (1250 : Time)
    ∧ demoTrajectory.points ≠ []
    ∧ reachedCount demoTrajectory 1250 = 2
    ∧ ∃ s s1,
        advanceAll holdSlerp (onNewTrajectory startedState demoTrajectory) [1050, 1150]
          = some s
        ∧ advance holdSlerp s 1250 = some s1
        ∧ s1.trajectory_ptr = reachedCount demoTrajectory 1250 :=
  ⟨by decide, by decide, by decide, by decide, by decide,
    (incremental_scan_eq_full_search holdSlerp startedState demoTrajectory [1050, 1150]
      1250 (by decide) (by decide) (by decide)).2 (by decide)⟩

/-! ### Index safety -/

lemma advance_cursor_bounded (slerp : Slerp) (T : CartesianTrajectory) (s s1 : State)
    (now : Time) (hT : s.trajectory = some T)
    (hptr : s.trajectory_ptr ≤ T.points.length) (h : advance slerp s now = some s1) :
    s1.trajectory = some T ∧ s1.trajectory_ptr ≤ T.points.length := by
  obtain ⟨ht, _, _, _⟩ := advance_frame slerp s s1 now h
  refine ⟨ht.trans hT, ?_⟩
  rcases advance_cases slerp s s1 T now hT h with ⟨_, rfl⟩ | ⟨_, hc⟩
  · exact hptr
  · rw [hc]
    exact scan_le_length T now _ hptr

lemma advanceAll_cursor_bounded (slerp : Slerp) (T : CartesianTrajectory)
    (nows : List Time) :
    ∀ s s1, s.trajectory = some T → s.trajectory_ptr ≤ T.points.length →
      advanceAll slerp s nows = some s1 →
      s1.trajectory = some T ∧ s1.trajectory_ptr ≤ T.points.length := by
  induction nows with
  | nil =>
    intro s s1 hT hptr h
    simp only [advanceAll, Option.some.injEq] at h
    subst h
    exact ⟨hT, hptr⟩
  | cons now rest ih =>
    intro s s1 hT hptr h
    simp only [advanceAll, Option.bind_eq_some] at h
    obtain ⟨s2, h2, h3⟩ := h
    obtain ⟨hT2, hptr2⟩ := advance_cursor_bounded slerp T s s2 now hT hptr h2
    exact ih s2 s1 hT2 hptr2 h3

/-- C20: index safety. For a trajectory `T` with at least one point, any
sequence of `advance` calls after `onNewTrajectory(T)` completes, which in
this embedding means that no call indexes `points` out of range; the state
reached still holds `T` with the cursor at most the point count, and one
more call at any time completes as well with the cursor still in range. -/
theorem index_safety (slerp : Slerp) (s0 : State) (T : CartesianTrajectory)
    (nows : List Time) (hne : T.points ≠ []) :
    ∃ s, advanceAll slerp (onNewTrajectory s0 T) nows = some s
      ∧ s.trajectory = some T ∧ 0 ≤ s.trajectory_ptr
      ∧ s.trajectory_ptr ≤ T.points.length
      ∧ ∀ now, ∃ s1, advance slerp s now = some s1
          ∧ s1.trajectory_ptr ≤ T.points.length := by
  have hne0 : ∀ T1, (onNewTrajectory s0 T).trajectory = some T1 → T1.points ≠ [] := by
    intro T1 hT1
    have : T = T1 := Option.some.inj hT1
    rw [← this]
    exact hne
  obtain ⟨s, hrun⟩ := advanceAll_completes slerp nows (onNewTrajectory s0 T) hne0
  obtain ⟨hT, hptr⟩ := advanceAll_cursor_bounded slerp T nows (onNewTrajectory s0 T) s rfl
    (Nat.zero_le _) hrun
  refine ⟨s, hrun, hT, Nat.zero_le _, hptr, fun now => ?_⟩
  obtain ⟨s1, hadv⟩ := advance_completes slerp s now (fun T1 hT1 => by
    rw [hT] at hT1; cases hT1; exact hne)
  exact ⟨s1, hadv, (advance_cursor_bounded slerp T s s1 now hT hptr hadv).2⟩

/-- Witness for C20: the demonstration trajectory and calls at times in no
particular order. -/
theorem index_safety_witness :
    demoTrajectory.points ≠ []
    ∧ ∃ s, advanceAll holdSlerp (onNewTrajectory startedState demoTrajectory)
          [1250, 900, 1050, 1300] = some s
      ∧ s.trajectory = some demoTrajectory ∧ 0 ≤ s.trajectory_ptr
      ∧ s.trajectory_ptr ≤ demoTrajectory.points.length
      ∧ ∀ now, ∃ s1, advance holdSlerp s now = some s1
          ∧ s1.trajectory_ptr ≤ demoTrajectory.points.length :=
  ⟨by decide,
    index_safety holdSlerp startedState demoTrajectory [1250, 900, 1050, 1300] (by decide)⟩

end CartesianInterpolator
